import Mathlib

/-!
Verification of the Number-Expression-Solver repository (`src/solver.py`,
`src/operators.py`).  Python floats are modelled as rationals, Python
exceptions (IndexError, KeyError, ValueError) as `Except.error ()`, and the
Python value `None` as `Option.none`.
-/

set_option maxHeartbeats 1000000

namespace NumExpr

/-- The `Operator` dataclass of `src/operators.py`: a binary function (where
`none` models the Python return value `None`, the domain-failure marker), an
integer precedence and an associativity flag. -/
structure Operator where
  func : ℚ → ℚ → Option ℚ
  precedence : ℤ
  associative : Bool

/-- The operator table `OPERATORS` of `src/operators.py` with its four enabled
entries; a lookup returning `none` models a Python `KeyError`. -/
def OPERATORS (s : String) : Option Operator :=
  if s = "+" then some ⟨fun x y => some (x + y), 1, true⟩
  else if s = "-" then some ⟨fun x y => some (x - y), 1, false⟩
  else if s = "*" then some ⟨fun x y => some (x * y), 2, true⟩
  else if s = "/" then some ⟨fun x y => if y ≠ 0 then some (x / y) else none, 2, false⟩
  else none

/-- The key list of the `OPERATORS` dict, in insertion order
(`OPERATORS.keys()` in `src/solver.py`). -/
def OPKEYS : List String := ["+", "-", "*", "/"]

/-- A token of an RPN sequence (the Python lists mix `float` and `str`;
`src/solver.py` distinguishes the cases by run-time type inspection). -/
inductive Token where
  | num (q : ℚ)
  | op (s : String)
deriving DecidableEq, Repr

/-- The inner recursive function `generate` of `generateRPNStructures` in
`src/solver.py` (lines 98-117).  `opsLeft` is an integer because the top-level
call passes the Python value `num - 1`, which is `-1` for `num = 0`. -/
def generate (numsLeft : ℕ) (opsLeft : ℤ) (stackSize : ℕ) (cur : List ℕ) :
    List (List ℕ) :=
  if numsLeft = 0 ∧ opsLeft = 0 then [cur]
  else
    (if h1 : 0 < numsLeft then
        generate (numsLeft - 1) opsLeft (stackSize + 1) (cur ++ [0])
      else []) ++
    (if h2 : 0 < opsLeft ∧ 2 ≤ stackSize then
        generate numsLeft (opsLeft - 1) (stackSize - 1) (cur ++ [1])
      else [])
termination_by numsLeft + opsLeft.toNat
decreasing_by
  · omega
  · omega

/-- `generateRPNStructures` of `src/solver.py` (lines 86-120). -/
def generateRPNStructures (num : ℕ) : List (List ℕ) :=
  generate num ((num : ℤ) - 1) 0 []

/-- Number of NUMBER slots (`0` entries) of a structure. -/
def countNums (l : List ℕ) : ℕ := (l.filter (fun x => x == 0)).length

/-- Number of OPERATOR slots (non-`0` entries) of a structure. -/
def countOps (l : List ℕ) : ℕ := (l.filter (fun x => x != 0)).length

/-- The stack invariant of a structure scanned left to right starting from
stack size `s`: the running operand count is at least `2` immediately before
every OPERATOR slot. -/
def validFrom : ℕ → List ℕ → Bool
  | _, [] => true
  | s, node :: rest =>
    if node = 0 then validFrom (s + 1) rest
    else decide (2 ≤ s) && validFrom (s - 1) rest

/-- The running operand count left after scanning a structure starting from
stack size `s` (+1 per NUMBER slot, -1 per OPERATOR slot). -/
def endStack : ℕ → List ℕ → ℕ
  | s, [] => s
  | s, node :: rest =>
    if node = 0 then endStack (s + 1) rest else endStack (s - 1) rest

/-- The loop body of `useStructures` of `src/solver.py` (lines 123-146), with
the two running indices explicit; an out-of-range index models the Python
`IndexError`. -/
def useStructuresGo (numbers : List ℚ) (operators : List String) :
    List ℕ → ℕ → ℕ → Except Unit (List Token)
  | [], _, _ => .ok []
  | node :: rest, numIdx, opIdx =>
    if node = 0 then
      match numbers[numIdx]? with
      | some q => (useStructuresGo numbers operators rest (numIdx + 1) opIdx).map
          (fun ts => Token.num q :: ts)
      | none => .error ()
    else
      match operators[opIdx]? with
      | some o => (useStructuresGo numbers operators rest numIdx (opIdx + 1)).map
          (fun ts => Token.op o :: ts)
      | none => .error ()

/-- `useStructures` of `src/solver.py`: applies numbers and operators to the
RPN structure. -/
def useStructures (st : List ℕ) (numbers : List ℚ) (operators : List String) :
    Except Unit (List Token) :=
  useStructuresGo numbers operators st 0 0

/-- The evaluation loop of `computeRPN` of `src/solver.py` (lines 149-170).
The stack grows at the head (the head is the most recently pushed value).
`.ok none` models the early `return None` on a domain failure, `.ok (some s)`
the stack after all tokens, `.error ()` an IndexError or KeyError. -/
def runRPN : List Token → List ℚ → Except Unit (Option (List ℚ))
  | [], stack => .ok (some stack)
  | Token.num q :: rest, stack => runRPN rest (q :: stack)
  | Token.op o :: rest, stack =>
    match stack with
    | rhs :: lhs :: stack' =>
      match OPERATORS o with
      | some od =>
        match od.func lhs rhs with
        | some res => runRPN rest (res :: stack')
        | none => .ok none
      | none => .error ()
    | _ => .error ()

/-- `computeRPN` of `src/solver.py`: runs the loop, then pops the top of the
stack as the result (`return stack.pop()`). -/
def computeRPN (input : List Token) : Except Unit (Option ℚ) :=
  match runRPN input [] with
  | .ok (some stack) =>
    match stack with
    | x :: _ => .ok (some x)
    | [] => .error ()
  | .ok none => .ok none
  | .error e => .error e

/-- A fragment of `rpnToInfix` of `src/solver.py`: rendered text, the recorded
top-level operator (or `none` for a bare number), and its precedence (`⊤`
models the Python `float("inf")` used for numbers). -/
abbrev Frag := String × Option String × WithTop ℤ

/-- The rendering loop of `rpnToInfix` of `src/solver.py` (lines 184-205). -/
def goInfix : List Token → List Frag → Except Unit (List Frag)
  | [], stack => .ok stack
  | Token.num q :: rest, stack =>
    goInfix rest ((toString q, none, (⊤ : WithTop ℤ)) :: stack)
  | Token.op o :: rest, stack =>
    match stack with
    | (rhsExpr, rhsOp, rhsPrec) :: (lhsExpr, lhsOp, lhsPrec) :: stack' =>
      match OPERATORS o with
      | some od =>
        let currPrec : WithTop ℤ := ((od.precedence : ℤ) : WithTop ℤ)
        let lhsExpr' :=
          if lhsOp.isSome ∧ lhsPrec < currPrec then "(" ++ lhsExpr ++ ")" else lhsExpr
        let rhsExpr' :=
          if rhsOp.isSome ∧
              (rhsPrec < currPrec ∨ (rhsPrec = currPrec ∧ od.associative = false)) then
            "(" ++ rhsExpr ++ ")"
          else rhsExpr
        goInfix rest ((lhsExpr' ++ " " ++ o ++ " " ++ rhsExpr', some o, currPrec) :: stack')
      | none => .error ()
    | _ => .error ()

/-- `rpnToInfix` of `src/solver.py` (lines 173-206): `.ok none` models the
`return None` on empty input; the final answer is the text of the fragment at
the bottom of the stack (`stack[0][0]` in the source). -/
def rpnToInfix (input : List Token) : Except Unit (Option String) :=
  if input = [] then .ok none
  else
    match goInfix input [] with
    | .ok stack =>
      match stack.getLast? with
      | some f => .ok (some f.1)
      | none => .error ()
    | .error e => .error e

/-- The body of the two nested loops of `processOpsCombinations` of
`src/solver.py` (lines 77-82) for one permutation and one structure: the
contribution to `res` (a one-element list when the target is hit, else
empty). -/
def processPair (operators : List String) (target : ℚ) (tol : ℚ)
    (perm : List ℚ) (st : List ℕ) : Except Unit (List (Option String)) := do
  let sequence ← useStructures st perm operators
  let computed ← computeRPN sequence
  match computed with
  | some v =>
    if |v - target| < tol then do
      let s ← rpnToInfix sequence
      return [s]
    else return []
  | none => return []

/-- `processOpsCombinations` of `src/solver.py` (lines 54-83): permutations in
the outer loop, structures in the inner loop, results appended in order. -/
def processOpsCombinations (operators : List String) (target : ℚ)
    (numbers : List ℚ) (structures : List (List ℕ)) (tol : ℚ) :
    Except Unit (List (Option String)) := do
  let nested ← numbers.permutations.mapM (fun perm => do
    let inner ← structures.mapM (fun st => processPair operators target tol perm st)
    return inner.flatten)
  return nested.flatten

/-- The body of the outer loop of `processOpsCombinations` for one
permutation (named for the proofs; `processOpsCombinations` is definitionally
the monadic map of this function over the permutations). -/
def innerSearch (operators : List String) (target : ℚ) (structures : List (List ℕ))
    (tol : ℚ) (perm : List ℚ) : Except Unit (List (Option String)) := do
  let inner ← structures.mapM (fun st => processPair operators target tol perm st)
  return inner.flatten

/-- `itertools.product(keys, repeat = k)` as used in `src/solver.py` line 34:
all tuples of length `k` drawn with repetition from `keys`. -/
def opTuples (keys : List String) : ℕ → List (List String)
  | 0 => [[]]
  | k + 1 => keys.flatMap (fun o => (opTuples keys k).map (fun t => o :: t))

/-- `solve` of `src/solver.py` (lines 8-51).  The printed attempt count is
returned alongside the result list; `numbers = []` gives `.error ()` because
`itertools.product(..., repeat = -1)` raises a ValueError. -/
def solve (target : ℚ) (numbers : List ℚ) (tol : ℚ) :
    Except Unit (ℕ × List (Option String)) :=
  let n := numbers.length
  let structures := generateRPNStructures n
  if n = 0 then .error ()
  else do
    let opsCombinations := opTuples OPKEYS (n - 1)
    let results ← opsCombinations.mapM
      (fun ops => processOpsCombinations ops target numbers structures tol)
    let result := results.flatten
    let attempts := opsCombinations.length * numbers.permutations.length * structures.length
    return (attempts, result)

/-- The shape of a token sequence: `0` per NUMBER token, `1` per OPERATOR
token. -/
def shapeOf (seq : List Token) : List ℕ :=
  seq.map (fun t => match t with | Token.num _ => 0 | Token.op _ => 1)

/-- A valid postfix sequence: its shape satisfies the stack invariant and
leaves exactly one operand. -/
def ValidSeq (seq : List Token) : Prop :=
  validFrom 0 (shapeOf seq) = true ∧ endStack 0 (shapeOf seq) = 1

/-- Every operator symbol of a sequence is a key of the table. -/
def opsWf (seq : List Token) : Bool :=
  seq.all (fun t => match t with | Token.num _ => true | Token.op o => (OPERATORS o).isSome)

/-- Binary expression trees: the abstract syntax both of postfix sequences
and of parsed infix text. -/
inductive Expr where
  | num (q : ℚ)
  | binop (o : String) (l r : Expr)
deriving DecidableEq, Repr

/-- The postfix (RPN) token sequence of an expression tree. -/
def postfixOf : Expr → List Token
  | .num q => [Token.num q]
  | .binop o l r => postfixOf l ++ postfixOf r ++ [Token.op o]

/-- Tree-recursive evaluation: `none` is a domain failure (or an absent
operator, which cannot occur for well-formed trees). -/
def evalQ : Expr → Option ℚ
  | .num q => some q
  | .binop o l r =>
    match evalQ l with
    | none => none
    | some x =>
      match evalQ r with
      | none => none
      | some y =>
        match OPERATORS o with
        | some od => od.func x y
        | none => none

/-- Every operator of the tree is a key of the table. -/
def wfE : Expr → Bool
  | .num _ => true
  | .binop o l r => (OPERATORS o).isSome && wfE l && wfE r

/-- The recorded top-level operator of a rendered fragment. -/
def topOp : Expr → Option String
  | .num _ => none
  | .binop o _ _ => some o

/-- The recorded precedence of a rendered fragment (`⊤` for a number, as the
source uses `float("inf")`). -/
def bp : Expr → WithTop ℤ
  | .num _ => ⊤
  | .binop o _ _ =>
    match OPERATORS o with
    | some od => ((od.precedence : ℤ) : WithTop ℤ)
    | none => ⊤

/-- Table lookup with a junk default, for total definitions; agrees with
`OPERATORS` on the four keys. -/
def odOf (o : String) : Operator := (OPERATORS o).getD ⟨fun _ _ => none, 0, false⟩

/-- The left-parenthesization test of `rpnToInfix` (line 195 of
`src/solver.py`), at the tree level. -/
def needL (o : String) (l : Expr) : Bool :=
  (topOp l).isSome && decide (bp l < (((odOf o).precedence : ℤ) : WithTop ℤ))

/-- The right-parenthesization test of `rpnToInfix` (lines 197-199 of
`src/solver.py`), at the tree level. -/
def needR (o : String) (r : Expr) : Bool :=
  (topOp r).isSome &&
    (decide (bp r < (((odOf o).precedence : ℤ) : WithTop ℤ)) ||
      (decide (bp r = (((odOf o).precedence : ℤ) : WithTop ℤ)) && !(odOf o).associative))

/-- Tree-recursive version of the string built by `rpnToInfix`. -/
def strOf : Expr → String
  | .num q => toString q
  | .binop o l r =>
    (if needL o l then "(" ++ strOf l ++ ")" else strOf l) ++ " " ++ o ++ " " ++
      (if needR o r then "(" ++ strOf r ++ ")" else strOf r)

/-- A lexical token of the rendered infix text. -/
inductive ITok where
  | lpar
  | rpar
  | numT (q : ℚ)
  | opT (s : String)
deriving DecidableEq, Repr

/-- The token stream of the rendered infix text of an expression (the lexed
form of `strOf`). -/
def toksOf : Expr → List ITok
  | .num q => [ITok.numT q]
  | .binop o l r =>
    (if needL o l then ITok.lpar :: (toksOf l ++ [ITok.rpar]) else toksOf l) ++
      ITok.opT o ::
        (if needR o r then ITok.lpar :: (toksOf r ++ [ITok.rpar]) else toksOf r)

/-- Text of one lexical token. -/
def strTok : ITok → String
  | .lpar => "("
  | .rpar => ")"
  | .numT q => toString q
  | .opT s => s

/-- Whether a space separates two adjacent tokens in the rendered text: the
source writes spaces around operators and glues parentheses to their
contents. -/
def sepNeeded : ITok → ITok → Bool
  | .lpar, _ => false
  | _, .rpar => false
  | _, _ => true

/-- Detokenization: the rendered text of a token stream. -/
def detok : List ITok → String
  | [] => ""
  | [t] => strTok t
  | t1 :: t2 :: rest =>
    strTok t1 ++ (if sepNeeded t1 t2 then " " else "") ++ detok (t2 :: rest)

/-- Reading a postfix sequence into an expression tree with a stack (the same
shape discipline as `computeRPN`). -/
def parseRPN : List Token → List Expr → Option Expr
  | [], stack => match stack with | [e] => some e | _ => none
  | Token.num q :: rest, stack => parseRPN rest (Expr.num q :: stack)
  | Token.op o :: rest, stack =>
    match stack with
    | y :: x :: stack' => parseRPN rest (Expr.binop o x y :: stack')
    | _ => none

/-- Smart node constructor that rotates an equal-precedence right child of an
associative operator to the left, mirroring how a left-to-right parser groups
the unparenthesized rendering. -/
def mkNode (o : String) (l : Expr) : Expr → Expr
  | .num q => .binop o l (.num q)
  | .binop o2 rl rr =>
    if (odOf o2).precedence = (odOf o).precedence ∧ (odOf o).associative = true then
      .binop o2 (mkNode o l rl) rr
    else .binop o l (.binop o2 rl rr)

/-- Left-association normal form: the tree a left-to-right
precedence-climbing parser produces from the rendered text. -/
def la : Expr → Expr
  | .num q => .num q
  | .binop o l r => mkNode o (la l) (la r)

/-- A tree is left-leaning when no node has an equal-precedence right child
under an associative operator (so its rendering protects every right
child). -/
def LLb : Expr → Bool
  | .num _ => true
  | .binop o l r =>
    LLb l && LLb r &&
      !((topOp r).isSome && decide (bp r = (((odOf o).precedence : ℤ) : WithTop ℤ)) &&
        (odOf o).associative)

mutual
/-- Modelled from the spec: the primary rule of a standard infix parser (a
number, or a parenthesized expression); fuel-indexed, over the lexed token
stream.  No parser exists in the repository; spec section 8 requires
round-tripping `render` through "standard infix parsing (with the same
OperatorTable's precedence/associativity)". -/
def parseP : ℕ → List ITok → Option (Expr × List ITok)
  | _, ITok.numT q :: ts => some (Expr.num q, ts)
  | f + 1, ITok.lpar :: ts =>
    (match parseE f ⊥ ts with
     | some (e, ITok.rpar :: ts') => some (e, ts')
     | _ => none)
  | _, _ => none

/-- Modelled from the spec: a standard precedence-climbing expression parse at
a minimal binding power `minP` (`⊥` at top level). -/
def parseE : ℕ → WithBot ℤ → List ITok → Option (Expr × List ITok)
  | f + 1, minP, ts =>
    (match parseP f ts with
     | some (lhs, ts') => parseL f minP lhs ts'
     | none => none)
  | 0, _, _ => none

/-- Modelled from the spec: the operator loop of a standard precedence
climber; every operator of the table is parsed left-associatively (the spec's
"postfix/infix traversal always associates left-to-right for operators of
equal precedence"), so the right operand is parsed at `precedence + 1`. -/
def parseL : ℕ → WithBot ℤ → Expr → List ITok → Option (Expr × List ITok)
  | f + 1, minP, lhs, ITok.opT o :: ts =>
    (match OPERATORS o with
     | some od =>
       if minP ≤ ((od.precedence : ℤ) : WithBot ℤ) then
         match parseE f (((od.precedence + 1 : ℤ)) : WithBot ℤ) ts with
         | some (rhs, ts') => parseL f minP (Expr.binop o lhs rhs) ts'
         | none => none
       else some (lhs, ITok.opT o :: ts)
     | none => none)
  | _ + 1, _, lhs, ts => some (lhs, ts)
  | 0, _, _, _ => none
end

/-- `minP ≤ b` across the two extended-integer types of the development
(`⊤` on the right satisfies everything). -/
def leB (m : WithBot ℤ) (b : WithTop ℤ) : Prop :=
  ∀ p : ℤ, b = ((p : ℤ) : WithTop ℤ) → m ≤ ((p : ℤ) : WithBot ℤ)

/-- Continuations on which the operator loop of the parser stops when called
with a minimal binding power above `b`: end of input, a closing parenthesis,
or a table operator of precedence at most `b`. -/
def StopsLe (b : WithTop ℤ) : List ITok → Prop
  | [] => True
  | ITok.rpar :: _ => True
  | ITok.opT o :: _ => ∃ od, OPERATORS o = some od ∧ ((od.precedence : ℤ) : WithTop ℤ) ≤ b
  | _ => False

/-- Continuation of an evaluation run: a finished stack continues with the
remaining tokens, a domain failure or an exception is final. -/
def contRPN (r : Except Unit (Option (List ℚ))) (ys : List Token) :
    Except Unit (Option (List ℚ)) :=
  match r with
  | .ok (some s) => runRPN ys s
  | x => x

deriving instance DecidableEq for Except

/-! ### Structure generation (C1) -/

theorem countNums_nil : countNums [] = 0 := rfl

theorem countOps_nil : countOps [] = 0 := rfl

theorem countNums_cons (x : ℕ) (t : List ℕ) :
    countNums (x :: t) = (if x = 0 then 1 else 0) + countNums t := by
  simp only [countNums, List.filter_cons]
  split <;> rename_i h <;> split <;> rename_i h2 <;> simp_all <;> omega

theorem countOps_cons (x : ℕ) (t : List ℕ) :
    countOps (x :: t) = (if x = 0 then 0 else 1) + countOps t := by
  simp only [countOps, List.filter_cons]
  split <;> rename_i h <;> split <;> rename_i h2 <;> simp_all <;> omega

theorem countNums_add_countOps (t : List ℕ) : countNums t + countOps t = t.length := by
  induction t with
  | nil => rfl
  | cons x t ih =>
    rw [countNums_cons, countOps_cons]
    split <;> simp [List.length_cons] <;> omega

theorem generate_sound : ∀ (n a : ℕ) (b : ℤ) (s : ℕ) (cur l : List ℕ),
    a + b.toNat ≤ n → l ∈ generate a b s cur →
    ∃ t, l = cur ++ t ∧ countNums t = a ∧ countOps t = b.toNat ∧
      validFrom s t = true ∧ ∀ x ∈ t, x = 0 ∨ x = 1 := by
  intro n
  induction n with
  | zero =>
    intro a b s cur l hn hl
    have ha : a = 0 := by omega
    have hb : b ≤ 0 := by omega
    rw [generate] at hl
    rcases lt_or_ge b 0 with hbneg | hbge
    · have : ¬(a = 0 ∧ b = 0) := by omega
      rw [if_neg this] at hl
      rw [dif_neg (by omega), dif_neg (by omega)] at hl
      simp at hl
    · have hb0 : b = 0 := le_antisymm hb hbge
      rw [if_pos ⟨ha, hb0⟩] at hl
      simp at hl
      exact ⟨[], by simp [hl], by simp [ha, countNums_nil], by simp [hb0, countOps_nil],
        rfl, by simp⟩
  | succ n ih =>
    intro a b s cur l hn hl
    rw [generate] at hl
    by_cases hbase : a = 0 ∧ b = 0
    · rw [if_pos hbase] at hl
      simp at hl
      exact ⟨[], by simp [hl], by simp [hbase.1, countNums_nil],
        by simp [hbase.2, countOps_nil], rfl, by simp⟩
    · rw [if_neg hbase] at hl
      rw [List.mem_append] at hl
      rcases hl with h | h
      · by_cases h1 : 0 < a
        · rw [dif_pos h1] at h
          obtain ⟨t, ht, hc0, hc1, hv, hm⟩ := ih (a - 1) b (s + 1) (cur ++ [0]) l (by omega) h
          refine ⟨0 :: t, by simp [ht], ?_, ?_, ?_, ?_⟩
          · rw [countNums_cons]; simp; omega
          · rw [countOps_cons]; simpa using hc1
          · simpa [validFrom] using hv
          · intro x hx
            rcases List.mem_cons.mp hx with hx | hx
            · left; exact hx
            · exact hm x hx
        · rw [dif_neg h1] at h; simp at h
      · by_cases h2 : 0 < b ∧ 2 ≤ s
        · rw [dif_pos h2] at h
          have hbn : (b - 1).toNat = b.toNat - 1 := by omega
          obtain ⟨t, ht, hc0, hc1, hv, hm⟩ := ih a (b - 1) (s - 1) (cur ++ [1]) l
            (by omega) h
          refine ⟨1 :: t, by simp [ht], ?_, ?_, ?_, ?_⟩
          · rw [countNums_cons]; simpa using hc0
          · rw [countOps_cons]; simp; omega
          · simp only [validFrom]
            rw [if_neg (by omega)]
            simp [hv, h2.2]
          · intro x hx
            rcases List.mem_cons.mp hx with hx | hx
            · right; exact hx
            · exact hm x hx
        · rw [dif_neg h2] at h; simp at h

theorem generate_length_len : ∀ (n a : ℕ) (b : ℤ) (s : ℕ) (cur l : List ℕ),
    a + b.toNat ≤ n → l ∈ generate a b s cur → l.length = cur.length + a + b.toNat := by
  intro n a b s cur l hn hl
  obtain ⟨t, ht, hc0, hc1, _, _⟩ := generate_sound n a b s cur l hn hl
  have := countNums_add_countOps t
  simp [ht]
  omega

theorem generate_nodup : ∀ (n a : ℕ) (b : ℤ) (s : ℕ) (cur : List ℕ),
    a + b.toNat ≤ n → (generate a b s cur).Nodup := by
  intro n
  induction n with
  | zero =>
    intro a b s cur hn
    rw [generate]
    split
    · exact List.nodup_singleton cur
    · rw [dif_neg (by omega), dif_neg (by omega)]
      exact List.Nodup.append List.nodup_nil List.nodup_nil (by simp)
  | succ n ih =>
    intro a b s cur hn
    rw [generate]
    split
    · exact List.nodup_singleton cur
    · refine List.Nodup.append ?_ ?_ ?_
      · split
        · exact ih _ _ _ _ (by omega)
        · exact List.nodup_nil
      · split
        · rename_i h2
          have : (b - 1).toNat = b.toNat - 1 := by omega
          exact ih _ _ _ _ (by omega)
        · exact List.nodup_nil
      · intro l hl1 hl2
        rename_i hbase
        rw [dite_eq_ite] at hl1 hl2
        split at hl1
        · split at hl2
          · rename_i h1 h2
            obtain ⟨t1, ht1, _, _, _, _⟩ :=
              generate_sound n (a - 1) b (s + 1) (cur ++ [0]) l (by omega) hl1
            have h2n : (b - 1).toNat = b.toNat - 1 := by omega
            obtain ⟨t2, ht2, _, _, _, _⟩ :=
              generate_sound n a (b - 1) (s - 1) (cur ++ [1]) l (by omega) hl2
            have e1 : l.drop cur.length = 0 :: t1 := by
              rw [ht1]
              have : cur ++ [0] ++ t1 = cur ++ (0 :: t1) := by simp
              rw [this, List.drop_left]
            have e2 : l.drop cur.length = 1 :: t2 := by
              rw [ht2]
              have : cur ++ [1] ++ t2 = cur ++ (1 :: t2) := by simp
              rw [this, List.drop_left]
            rw [e1] at e2
            simp at e2
          · simp at hl2
        · simp at hl1

theorem generate_length_aux : ∀ (n a b s : ℕ) (cur : List ℕ),
    a + b ≤ n → 1 ≤ s → b + 1 = s + a →
    (((generate a (b : ℤ) s cur).length : ℤ)) =
      ((a + b).choose b : ℤ) - ((a + b).choose (b + 1) : ℤ) := by
  intro n
  induction n with
  | zero =>
    intro a b s cur hn hs hinv
    have ha : a = 0 := by omega
    have hb : b = 0 := by omega
    subst ha hb
    rw [generate, if_pos ⟨rfl, rfl⟩]
    simp
  | succ n ih =>
    intro a b s cur hn hs hinv
    rw [generate]
    by_cases ha : a = 0
    · subst ha
      by_cases hb : b = 0
      · subst hb
        rw [if_pos ⟨rfl, rfl⟩]
        simp
      · have hs2 : s = b + 1 := by omega
        rw [if_neg (by simp [hb])]
        rw [dif_neg (by omega), dif_pos (by constructor <;> omega)]
        have hcast : ((b : ℤ) - 1) = (((b - 1 : ℕ) : ℤ)) := by omega
        rw [hcast]
        have hrec := ih 0 (b - 1) (s - 1) (cur ++ [1]) (by omega) (by omega) (by omega)
        simp only [List.nil_append, List.length_append, List.length_nil] at hrec ⊢
        rw [hrec]
        have e1 : (b - 1 : ℕ) + 1 = b := by omega
        have e2 : (b - 1).choose b = 0 := by
          have h := Nat.choose_succ_self (b - 1)
          rw [Nat.succ_eq_add_one, e1] at h
          exact h
        simp [Nat.choose_self, Nat.choose_succ_self, e1, e2]
    · by_cases hb : b = 0
      · omega
      · rw [if_neg (by simp [ha])]
        by_cases hs2 : 2 ≤ s
        · rw [dif_pos (by omega), dif_pos (by constructor <;> omega)]
          have hcast : ((b : ℤ) - 1) = (((b - 1 : ℕ) : ℤ)) := by omega
          rw [hcast]
          have ih1 := ih (a - 1) b (s + 1) (cur ++ [0]) (by omega) (by omega) (by omega)
          have ih2 := ih a (b - 1) (s - 1) (cur ++ [1]) (by omega) (by omega) (by omega)
          rw [List.length_append]
          have hc1 : ((b - 1 : ℕ)) + 1 = b := by omega
          rw [hc1] at ih2
          have ha1 : a - 1 + b = a + b - 1 := by omega
          have ha2 : a + (b - 1) = a + b - 1 := by omega
          rw [ha1] at ih1
          rw [ha2] at ih2
          have hp1 : ((a + b).choose b : ℤ) =
              ((a + b - 1).choose (b - 1) : ℤ) + ((a + b - 1).choose b : ℤ) := by
            have h := Nat.choose_succ_succ' (a + b - 1) (b - 1)
            rw [show (a + b - 1) + 1 = a + b from by omega,
              show (b - 1) + 1 = b from by omega] at h
            exact_mod_cast h
          have hp2 : ((a + b).choose (b + 1) : ℤ) =
              ((a + b - 1).choose b : ℤ) + ((a + b - 1).choose (b + 1) : ℤ) := by
            have h := Nat.choose_succ_succ' (a + b - 1) b
            rw [show (a + b - 1) + 1 = a + b from by omega] at h
            exact_mod_cast h
          push_cast at ih1 ih2 ⊢
          rw [ih1, ih2, hp1, hp2]
          ring
        · have hs1 : s = 1 := by omega
          subst hs1
          have hba : b = a := by omega
          rw [dif_pos (by omega), dif_neg (by omega)]
          have ih1 := ih (a - 1) b 2 (cur ++ [0]) (by omega) (by omega) (by omega)
          rw [List.length_append, List.length_nil]
          have ha1 : a - 1 + b = a + b - 1 := by omega
          rw [ha1] at ih1
          have hp1 : ((a + b).choose b : ℤ) =
              ((a + b - 1).choose (b - 1) : ℤ) + ((a + b - 1).choose b : ℤ) := by
            have h := Nat.choose_succ_succ' (a + b - 1) (b - 1)
            rw [show (a + b - 1) + 1 = a + b from by omega,
              show (b - 1) + 1 = b from by omega] at h
            exact_mod_cast h
          have hp2 : ((a + b).choose (b + 1) : ℤ) =
              ((a + b - 1).choose b : ℤ) + ((a + b - 1).choose (b + 1) : ℤ) := by
            have h := Nat.choose_succ_succ' (a + b - 1) b
            rw [show (a + b - 1) + 1 = a + b from by omega] at h
            exact_mod_cast h
          have hsym : ((a + b - 1).choose (b - 1) : ℤ) = ((a + b - 1).choose b : ℤ) := by
            have h1 : (a + b - 1) - (b - 1) = b := by omega
            have := Nat.choose_symm (show b - 1 ≤ a + b - 1 from by omega)
            rw [h1] at this
            exact_mod_cast this.symm
          push_cast at ih1 ⊢
          rw [ih1, hp1, hp2, hsym]
          ring

theorem catalan_as_choose (m : ℕ) :
    (catalan m : ℤ) = ((2 * m).choose m : ℤ) - ((2 * m).choose (m + 1) : ℤ) := by
  have h1 : (m + 1) * catalan m = (2 * m).choose m := by
    have := succ_mul_catalan_eq_centralBinom m
    rwa [Nat.centralBinom] at this
  have h2 : (2 * m).choose (m + 1) * (m + 1) = (2 * m).choose m * m := by
    have := Nat.choose_succ_right_eq (2 * m) m
    rwa [show 2 * m - m = m from by omega] at this
  have key : ((m : ℤ) + 1) * (((2 * m).choose m : ℤ) - ((2 * m).choose (m + 1) : ℤ)) =
      ((m : ℤ) + 1) * (catalan m : ℤ) := by
    have h1' : ((m : ℤ) + 1) * (catalan m : ℤ) = ((2 * m).choose m : ℤ) := by
      exact_mod_cast h1
    have h2' : ((2 * m).choose (m + 1) : ℤ) * ((m : ℤ) + 1) =
        ((2 * m).choose m : ℤ) * m := by
      exact_mod_cast h2
    rw [h1']
    linarith
  have hne : ((m : ℤ) + 1) ≠ 0 := by positivity
  exact (mul_left_cancel₀ hne key).symm

theorem generateRPNStructures_length (n : ℕ) (hn : 1 ≤ n) :
    (generateRPNStructures n).length = catalan (n - 1) := by
  obtain ⟨m, rfl⟩ : ∃ m, n = m + 1 := ⟨n - 1, by omega⟩
  rcases Nat.eq_zero_or_pos m with hm | hm
  · subst hm
    show (generate 1 ((1 : ℤ) - 1) 0 []).length = catalan 0
    rw [generate]
    rw [if_neg (by omega), dif_pos (by omega), dif_neg (by omega)]
    rw [generate, if_pos (by omega)]
    simp [catalan_zero]
  · unfold generateRPNStructures
    have hcast : (((m + 1 : ℕ) : ℤ) - 1) = ((m : ℕ) : ℤ) := by omega
    rw [hcast, generate]
    rw [if_neg (by omega), dif_pos (by omega), dif_neg (by omega)]
    have hlen := generate_length_aux (m + m) m m 1 ([] ++ [0]) (by omega) (by omega) (by omega)
    have hcat := catalan_as_choose m
    simp only [List.append_nil, List.length_append, List.length_nil] at hlen ⊢
    have key : ((generate m ((m : ℕ) : ℤ) 1 ([] ++ [0])).length : ℤ) = (catalan m : ℤ) := by
      rw [hlen, hcat]
      rw [show m + m = 2 * m from by omega]
    have h2 : ((m + 1 : ℕ) - 1) = m := by omega
    rw [h2]
    exact_mod_cast key

theorem endStack_eq (t : List ℕ) : ∀ s, validFrom s t = true →
    endStack s t + countOps t = s + countNums t := by
  induction t with
  | nil => intro s _; rfl
  | cons x t ih =>
    intro s hv
    rw [countNums_cons, countOps_cons]
    by_cases hx : x = 0
    · subst hx
      simp only [validFrom, if_true, reduceIte] at hv
      have h := ih (s + 1) hv
      simp only [endStack, reduceIte]
      omega
    · simp only [validFrom, if_neg hx, Bool.and_eq_true, decide_eq_true_eq] at hv
      have h := ih (s - 1) hv.2
      simp only [endStack, if_neg hx]
      omega

theorem generateRPNStructures_valid (n : ℕ) (hn : 1 ≤ n) :
    ∀ l ∈ generateRPNStructures n,
      (∀ x ∈ l, x = 0 ∨ x = 1) ∧ countNums l = n ∧ countOps l = n - 1 ∧
        validFrom 0 l = true ∧ endStack 0 l = 1 := by
  intro l hl
  obtain ⟨t, ht, hc0, hc1, hv, hm⟩ :=
    generate_sound (n + ((n : ℤ) - 1).toNat) n ((n : ℤ) - 1) 0 [] l (le_refl _) hl
  simp only [List.nil_append] at ht
  rw [ht]
  have htn : ((n : ℤ) - 1).toNat = n - 1 := by omega
  have hend := endStack_eq t 0 hv
  exact ⟨hm, hc0, by omega, hv, by omega⟩

/-- C1: for every integer `n ≥ 1`, `generateRPNStructures n` returns exactly
`catalan (n-1)` structures, with no duplicates, and every returned structure
is valid: exactly `n` NUMBER slots and `n-1` OPERATOR slots, and scanning
left to right the running operand count never drops below 2 immediately
before an OPERATOR and ends at exactly 1. -/
theorem generateRPNStructures_correct (n : ℕ) (hn : 1 ≤ n) :
    (generateRPNStructures n).length = catalan (n - 1) ∧
    (generateRPNStructures n).Nodup ∧
    ∀ l ∈ generateRPNStructures n,
      countNums l = n ∧ countOps l = n - 1 ∧ validFrom 0 l = true ∧ endStack 0 l = 1 := by
  refine ⟨generateRPNStructures_length n hn, ?_, ?_⟩
  · exact generate_nodup (n + ((n : ℤ) - 1).toNat) n ((n : ℤ) - 1) 0 [] (le_refl _)
  · intro l hl
    obtain ⟨_, hc0, hc1, hv, hend⟩ := generateRPNStructures_valid n hn l hl
    exact ⟨hc0, hc1, hv, hend⟩

theorem generateRPNStructures_correct_witness :
    1 ≤ 3 ∧
      ((generateRPNStructures 3).length = catalan (3 - 1) ∧
        (generateRPNStructures 3).Nodup ∧
        ∀ l ∈ generateRPNStructures 3,
          countNums l = 3 ∧ countOps l = 3 - 1 ∧ validFrom 0 l = true ∧ endStack 0 l = 1) :=
  ⟨by norm_num, generateRPNStructures_correct 3 (by norm_num)⟩

/-! ### Postfix evaluation (C3, C4) -/

theorem runRPN_append (xs : List Token) : ∀ (ys : List Token) (stk : List ℚ),
    runRPN (xs ++ ys) stk = contRPN (runRPN xs stk) ys := by
  induction xs with
  | nil => intro ys stk; rfl
  | cons x xs ih =>
    intro ys stk
    cases x with
    | num q =>
      rw [List.cons_append]
      simp only [runRPN]
      exact ih ys (q :: stk)
    | op o =>
      rw [List.cons_append]
      cases stk with
      | nil => simp [runRPN, contRPN]
      | cons rhs stk1 =>
        cases stk1 with
        | nil => simp [runRPN, contRPN]
        | cons lhs stk2 =>
          cases hop : OPERATORS o with
          | none => simp [runRPN, contRPN, hop]
          | some od =>
            cases hf : od.func lhs rhs with
            | none => simp [runRPN, contRPN, hop, hf]
            | some res =>
              simp only [runRPN, hop, hf]
              exact ih ys (res :: stk2)

theorem runRPN_postfix (e : Expr) : wfE e = true → ∀ (rest : List Token) (stk : List ℚ),
    runRPN (postfixOf e ++ rest) stk =
      match evalQ e with
      | some v => runRPN rest (v :: stk)
      | none => .ok none := by
  induction e with
  | num q => intro _ rest stk; rfl
  | binop o l r ihl ihr =>
    intro hwf rest stk
    simp only [wfE, Bool.and_eq_true] at hwf
    obtain ⟨⟨hwo, hwl⟩, hwr⟩ := hwf
    rw [Option.isSome_iff_exists] at hwo
    obtain ⟨od, hop⟩ := hwo
    simp only [postfixOf]
    rw [List.append_assoc, List.append_assoc]
    rw [ihl hwl]
    cases hl : evalQ l with
    | none => simp [evalQ, hl]
    | some x =>
      dsimp only
      rw [ihr hwr]
      cases hr : evalQ r with
      | none => simp [evalQ, hl, hr]
      | some y =>
        dsimp only
        rw [List.singleton_append]
        simp only [runRPN, hop]
        simp only [evalQ, hl, hr, hop]

theorem computeRPN_postfix (e : Expr) (hwf : wfE e = true) :
    computeRPN (postfixOf e) = .ok (evalQ e) ∧
      runRPN (postfixOf e) [] =
        (match evalQ e with
          | some v => .ok (some [v])
          | none => .ok none) := by
  have h := runRPN_postfix e hwf [] []
  rw [List.append_nil] at h
  cases he : evalQ e with
  | none =>
    rw [he] at h
    dsimp only at h
    exact ⟨by simp [computeRPN, h], h⟩
  | some v =>
    rw [he] at h
    dsimp only at h
    simp only [runRPN] at h
    exact ⟨by simp [computeRPN, h], h⟩

theorem shapeOf_cons_num (q : ℚ) (rest : List Token) :
    shapeOf (Token.num q :: rest) = 0 :: shapeOf rest := rfl

theorem shapeOf_cons_op (o : String) (rest : List Token) :
    shapeOf (Token.op o :: rest) = 1 :: shapeOf rest := rfl

theorem validFrom_cons_zero (s : ℕ) (sh : List ℕ) :
    validFrom s (0 :: sh) = validFrom (s + 1) sh := by
  simp [validFrom]

theorem validFrom_cons_one (s : ℕ) (sh : List ℕ) :
    validFrom s (1 :: sh) = (decide (2 ≤ s) && validFrom (s - 1) sh) := by
  simp [validFrom]

theorem endStack_cons_zero (s : ℕ) (sh : List ℕ) :
    endStack s (0 :: sh) = endStack (s + 1) sh := by
  simp [endStack]

theorem endStack_cons_one (s : ℕ) (sh : List ℕ) :
    endStack s (1 :: sh) = endStack (s - 1) sh := by
  simp [endStack]

theorem parseRPN_complete : ∀ (seq : List Token) (stk : List Expr),
    validFrom stk.length (shapeOf seq) = true →
    endStack stk.length (shapeOf seq) = 1 →
    ∃ e, parseRPN seq stk = some e ∧
      postfixOf e = (stk.reverse.flatMap postfixOf) ++ seq := by
  intro seq
  induction seq with
  | nil =>
    intro stk _ hend
    simp only [shapeOf, List.map_nil, endStack] at hend
    cases stk with
    | nil => simp at hend
    | cons e stk1 =>
      cases stk1 with
      | cons e2 stk2 =>
        exfalso
        simp only [List.length_cons] at hend
        omega
      | nil =>
        refine ⟨e, rfl, ?_⟩
        simp [postfixOf]
  | cons tk rest ih =>
    intro stk hv hend
    cases tk with
    | num q =>
      rw [shapeOf_cons_num] at hv hend
      rw [validFrom_cons_zero] at hv
      rw [endStack_cons_zero] at hend
      obtain ⟨e, he, hp⟩ := ih (Expr.num q :: stk) (by simpa using hv) (by simpa using hend)
      refine ⟨e, by simpa [parseRPN] using he, ?_⟩
      rw [hp]
      simp [postfixOf, List.flatMap_append, List.append_assoc]
    | op o =>
      rw [shapeOf_cons_op] at hv hend
      rw [validFrom_cons_one, Bool.and_eq_true, decide_eq_true_eq] at hv
      rw [endStack_cons_one] at hend
      obtain ⟨hs2, hv2⟩ := hv
      cases stk with
      | nil => simp at hs2
      | cons y stk1 =>
        cases stk1 with
        | nil => simp at hs2
        | cons x stk2 =>
          have hlen : (Expr.binop o x y :: stk2).length = (y :: x :: stk2).length - 1 := by
            simp
          obtain ⟨e, he, hp⟩ := ih (Expr.binop o x y :: stk2)
            (by rw [hlen]; exact hv2) (by rw [hlen]; exact hend)
          refine ⟨e, by simpa [parseRPN] using he, ?_⟩
          rw [hp]
          simp [postfixOf, List.flatMap_append, List.append_assoc]

theorem valid_seq_expr (seq : List Token) (hval : ValidSeq seq) :
    ∃ e, parseRPN seq [] = some e ∧ postfixOf e = seq := by
  obtain ⟨hv, hend⟩ := hval
  obtain ⟨e, he, hp⟩ := parseRPN_complete seq [] (by simpa using hv) (by simpa using hend)
  exact ⟨e, he, by simpa using hp⟩

theorem wfE_of_opsWf (e : Expr) : opsWf (postfixOf e) = true → wfE e = true := by
  induction e with
  | num q => intro _; rfl
  | binop o l r ihl ihr =>
    intro h
    simp only [postfixOf, opsWf, List.all_append, List.all_cons, List.all_nil,
      Bool.and_eq_true] at h
    simp only [wfE, Bool.and_eq_true]
    exact ⟨⟨h.2.1, ihl h.1.1⟩, ihr h.1.2⟩

/-- C3: for every valid postfix sequence, `computeRPN` processes an OPERATOR
token by popping the most recently pushed value as the right operand and the
next value as the left operand, applying `f(leftOperand, rightOperand)` and
pushing the result; after all tokens are consumed exactly one value remains
on the stack, and that value is the returned result. -/
theorem computeRPN_correct (seq : List Token) (hval : ValidSeq seq)
    (hops : opsWf seq = true) :
    (∀ (o : String) (od : Operator) (rest : List Token) (rhs lhs : ℚ) (stk : List ℚ),
        OPERATORS o = some od →
        runRPN (Token.op o :: rest) (rhs :: lhs :: stk) =
          (match od.func lhs rhs with
            | some v => runRPN rest (v :: stk)
            | none => .ok none)) ∧
    ((runRPN seq [] = .ok none ∧ computeRPN seq = .ok none) ∨
      ∃ v, runRPN seq [] = .ok (some [v]) ∧ computeRPN seq = .ok (some v)) := by
  constructor
  · intro o od rest rhs lhs stk hop
    simp [runRPN, hop]
  · obtain ⟨e, _, hp⟩ := valid_seq_expr seq hval
    have hwf := wfE_of_opsWf e (by rw [hp]; exact hops)
    obtain ⟨hc, hr⟩ := computeRPN_postfix e hwf
    rw [hp] at hc hr
    cases he : evalQ e with
    | none =>
      left
      rw [he] at hc hr
      exact ⟨by simpa using hr, by simpa using hc⟩
    | some v =>
      right
      refine ⟨v, ?_, ?_⟩
      · rw [he] at hr; simpa using hr
      · rw [he] at hc; simpa using hc

theorem computeRPN_correct_witness :
    ValidSeq [Token.num 2, Token.num 3, Token.op "+"] ∧
      opsWf [Token.num 2, Token.num 3, Token.op "+"] = true ∧
      ((∀ (o : String) (od : Operator) (rest : List Token) (rhs lhs : ℚ) (stk : List ℚ),
          OPERATORS o = some od →
          runRPN (Token.op o :: rest) (rhs :: lhs :: stk) =
            (match od.func lhs rhs with
              | some v => runRPN rest (v :: stk)
              | none => .ok none)) ∧
        ((runRPN [Token.num 2, Token.num 3, Token.op "+"] [] = .ok none ∧
            computeRPN [Token.num 2, Token.num 3, Token.op "+"] = .ok none) ∨
          ∃ v, runRPN [Token.num 2, Token.num 3, Token.op "+"] [] = .ok (some [v]) ∧
            computeRPN [Token.num 2, Token.num 3, Token.op "+"] = .ok (some v))) :=
  ⟨⟨by decide, by decide⟩, by decide,
    computeRPN_correct [Token.num 2, Token.num 3, Token.op "+"] ⟨by decide, by decide⟩
      (by decide)⟩

/-- C4: if any operator application signals a domain failure (returns `none`),
`computeRPN` halts immediately and returns `none` for the whole sequence,
producing no partial numeric result, regardless of where in the sequence the
failing application occurs (the suffix after the failing operator is
arbitrary and never examined). -/
theorem computeRPN_domain_failure (pre post : List Token) (o : String) (od : Operator)
    (rhs lhs : ℚ) (stk : List ℚ)
    (hpre : runRPN pre [] = .ok (some (rhs :: lhs :: stk)))
    (hop : OPERATORS o = some od) (hf : od.func lhs rhs = none) :
    runRPN (pre ++ Token.op o :: post) [] = .ok none ∧
      computeRPN (pre ++ Token.op o :: post) = .ok none := by
  have h := runRPN_append pre (Token.op o :: post) []
  rw [hpre] at h
  rw [show contRPN (.ok (some (rhs :: lhs :: stk))) (Token.op o :: post) = .ok none from by
    simp [contRPN, runRPN, hop, hf]] at h
  exact ⟨h, by simp [computeRPN, h]⟩

theorem computeRPN_domain_failure_witness :
    runRPN [Token.num 1, Token.num 0] [] = .ok (some [0, 1]) ∧
      (runRPN ([Token.num 1, Token.num 0] ++
          Token.op "/" :: [Token.num 5, Token.op "+"]) [] = .ok none ∧
        computeRPN ([Token.num 1, Token.num 0] ++
          Token.op "/" :: [Token.num 5, Token.op "+"]) = .ok none) :=
  ⟨by decide,
    computeRPN_domain_failure [Token.num 1, Token.num 0] [Token.num 5, Token.op "+"]
      "/" ⟨fun x y => if y ≠ 0 then some (x / y) else none, 2, false⟩ 0 1 []
      (by decide) rfl (by decide)⟩

/-! ### Infix rendering steps (C2, C8) -/

/-- C2: at each OPERATOR token, `rpnToInfix` parenthesizes the left fragment
iff it has a recorded top-level operator of strictly lower precedence, and
the right fragment iff it has a recorded top-level operator and either its
precedence is strictly lower, or equal with the current operator not
associative; in particular postfix `a b - c -` renders with no parentheses
around `c`, while `a b c - -` renders with parentheses around `b - c`. -/
theorem rpnToInfix_paren_rule :
    (∀ (o : String) (od : Operator) (rest : List Token) (stack : List Frag)
        (ls rs : String) (lo ro : Option String) (lp rp : WithTop ℤ),
        OPERATORS o = some od →
        goInfix (Token.op o :: rest) ((rs, ro, rp) :: (ls, lo, lp) :: stack) =
          goInfix rest
            (((if lo.isSome ∧ lp < ((od.precedence : ℤ) : WithTop ℤ) then
                  "(" ++ ls ++ ")" else ls) ++ " " ++ o ++ " " ++
              (if ro.isSome ∧ (rp < ((od.precedence : ℤ) : WithTop ℤ) ∨
                    (rp = ((od.precedence : ℤ) : WithTop ℤ) ∧ od.associative = false)) then
                  "(" ++ rs ++ ")" else rs),
              some o, ((od.precedence : ℤ) : WithTop ℤ)) :: stack)) ∧
    (∀ a b c : ℚ,
      rpnToInfix [Token.num a, Token.num b, Token.op "-", Token.num c, Token.op "-"] =
        .ok (some (toString a ++ " " ++ "-" ++ " " ++ toString b ++ " " ++ "-" ++ " " ++
          toString c)) ∧
      rpnToInfix [Token.num a, Token.num b, Token.num c, Token.op "-", Token.op "-"] =
        .ok (some (toString a ++ " " ++ "-" ++ " " ++
          ("(" ++ (toString b ++ " " ++ "-" ++ " " ++ toString c) ++ ")")))) := by
  constructor
  · intro o od rest stack ls rs lo ro lp rp hop
    simp [goInfix, hop]
  · intro a b c
    constructor
    · simp [rpnToInfix, goInfix, OPERATORS]
    · simp [rpnToInfix, goInfix, OPERATORS]

theorem rpnToInfix_paren_rule_witness :
    goInfix (Token.op "+" :: []) (("3", none, (⊤ : WithTop ℤ)) ::
        ("2", none, (⊤ : WithTop ℤ)) :: []) =
      goInfix []
        (((if (none : Option String).isSome ∧ (⊤ : WithTop ℤ) < ((1 : ℤ) : WithTop ℤ) then
              "(" ++ "2" ++ ")" else "2") ++ " " ++ "+" ++ " " ++
          (if (none : Option String).isSome ∧ ((⊤ : WithTop ℤ) < ((1 : ℤ) : WithTop ℤ) ∨
                ((⊤ : WithTop ℤ) = ((1 : ℤ) : WithTop ℤ) ∧ true = false)) then
              "(" ++ "3" ++ ")" else "3"),
          some "+", ((1 : ℤ) : WithTop ℤ)) :: []) :=
  rpnToInfix_paren_rule.1 "+" ⟨fun x y => some (x + y), 1, true⟩ [] [] "2" "3"
    none none ⊤ ⊤ rfl

/-- C8: the rendering step never encloses a NUMBER fragment (one with no
recorded top-level operator) in parentheses, and never encloses an operand
fragment whose recorded top-level operator has strictly higher precedence
than the current operator — each side independently: a protected left
operand stays unwrapped whatever the right side requires, and a protected
right operand stays unwrapped whatever the left side requires. -/
theorem rpnToInfix_minimal (o : String) (od : Operator) (rest : List Token)
    (stack : List Frag) (ls rs : String) (lo ro : Option String) (lp rp : WithTop ℤ)
    (hop : OPERATORS o = some od) :
    ((lo = none ∨ ((od.precedence : ℤ) : WithTop ℤ) < lp) →
      goInfix (Token.op o :: rest) ((rs, ro, rp) :: (ls, lo, lp) :: stack) =
        goInfix rest
          ((ls ++ " " ++ o ++ " " ++
              (if ro.isSome ∧ (rp < ((od.precedence : ℤ) : WithTop ℤ) ∨
                    (rp = ((od.precedence : ℤ) : WithTop ℤ) ∧ od.associative = false)) then
                  "(" ++ rs ++ ")" else rs),
            some o, ((od.precedence : ℤ) : WithTop ℤ)) :: stack)) ∧
    ((ro = none ∨ ((od.precedence : ℤ) : WithTop ℤ) < rp) →
      goInfix (Token.op o :: rest) ((rs, ro, rp) :: (ls, lo, lp) :: stack) =
        goInfix rest
          (((if lo.isSome ∧ lp < ((od.precedence : ℤ) : WithTop ℤ) then
                "(" ++ ls ++ ")" else ls) ++ " " ++ o ++ " " ++ rs,
            some o, ((od.precedence : ℤ) : WithTop ℤ)) :: stack)) := by
  constructor
  · intro hl
    have hlc : ¬(lo.isSome ∧ lp < ((od.precedence : ℤ) : WithTop ℤ)) := by
      rcases hl with h | h
      · rintro ⟨hs, _⟩; rw [h] at hs; simp at hs
      · rintro ⟨_, hlt⟩; exact absurd hlt (not_lt_of_lt h)
    simp [goInfix, hop, hlc]
  · intro hr
    have hrc : ¬(ro.isSome ∧ (rp < ((od.precedence : ℤ) : WithTop ℤ) ∨
        (rp = ((od.precedence : ℤ) : WithTop ℤ) ∧ od.associative = false))) := by
      rcases hr with h | h
      · rintro ⟨hs, _⟩; rw [h] at hs; simp at hs
      · rintro ⟨_, hlt | ⟨heq, _⟩⟩
        · exact absurd hlt (not_lt_of_lt h)
        · rw [heq] at h; exact absurd h (lt_irrefl _)
    simp [goInfix, hop, hrc]

theorem rpnToInfix_minimal_witness :
    goInfix (Token.op "*" :: []) (("2 + 3", some "+", ((1 : ℤ) : WithTop ℤ)) ::
        ("1", none, (⊤ : WithTop ℤ)) :: []) =
      goInfix []
        (("1" ++ " " ++ "*" ++ " " ++
            (if (some "+" : Option String).isSome ∧
                  (((1 : ℤ) : WithTop ℤ) < ((2 : ℤ) : WithTop ℤ) ∨
                    (((1 : ℤ) : WithTop ℤ) = ((2 : ℤ) : WithTop ℤ) ∧ true = false)) then
                "(" ++ "2 + 3" ++ ")" else "2 + 3"),
          some "*", ((2 : ℤ) : WithTop ℤ)) :: []) :=
  (rpnToInfix_minimal "*" ⟨fun x y => some (x * y), 2, true⟩ [] [] "1" "2 + 3"
    none (some "+") ⊤ ((1 : ℤ) : WithTop ℤ) rfl).1 (Or.inl rfl)

/-! ### The rendering loop agrees with the tree-level renderer -/

theorem odOf_lookup (o : String) (od : Operator) (h : OPERATORS o = some od) :
    odOf o = od := by
  simp [odOf, h]

theorem bp_binop (o : String) (l r : Expr) (od : Operator) (h : OPERATORS o = some od) :
    bp (Expr.binop o l r) = ((od.precedence : ℤ) : WithTop ℤ) := by
  simp [bp, h]

theorem topOp_binop (o : String) (l r : Expr) : topOp (Expr.binop o l r) = some o := rfl

theorem goInfix_postfix (e : Expr) : wfE e = true → ∀ (rest : List Token) (stk : List Frag),
    goInfix (postfixOf e ++ rest) stk = goInfix rest ((strOf e, topOp e, bp e) :: stk) := by
  induction e with
  | num q => intro _ rest stk; rfl
  | binop o l r ihl ihr =>
    intro hwf rest stk
    simp only [wfE, Bool.and_eq_true] at hwf
    obtain ⟨⟨hwo, hwl⟩, hwr⟩ := hwf
    rw [Option.isSome_iff_exists] at hwo
    obtain ⟨od, hop⟩ := hwo
    simp only [postfixOf]
    rw [List.append_assoc, List.append_assoc]
    rw [ihl hwl, ihr hwr]
    rw [List.singleton_append]
    simp only [goInfix, hop]
    have hL : ((topOp l).isSome = true ∧ bp l < ((od.precedence : ℤ) : WithTop ℤ)) ↔
        needL o l = true := by
      simp only [needL, odOf_lookup o od hop, Bool.and_eq_true, decide_eq_true_eq]
    have hR : ((topOp r).isSome = true ∧ (bp r < ((od.precedence : ℤ) : WithTop ℤ) ∨
        (bp r = ((od.precedence : ℤ) : WithTop ℤ) ∧ od.associative = false))) ↔
        needR o r = true := by
      simp only [needR, odOf_lookup o od hop, Bool.and_eq_true, Bool.or_eq_true,
        decide_eq_true_eq, Bool.not_eq_true']
    have hstrl : (if (topOp l).isSome = true ∧ bp l < ((od.precedence : ℤ) : WithTop ℤ) then
        "(" ++ strOf l ++ ")" else strOf l) = (if needL o l then "(" ++ strOf l ++ ")"
        else strOf l) := if_congr hL rfl rfl
    have hstrr : (if (topOp r).isSome = true ∧ (bp r < ((od.precedence : ℤ) : WithTop ℤ) ∨
        (bp r = ((od.precedence : ℤ) : WithTop ℤ) ∧ od.associative = false)) then
        "(" ++ strOf r ++ ")" else strOf r) = (if needR o r then "(" ++ strOf r ++ ")"
        else strOf r) := if_congr hR rfl rfl
    show goInfix rest _ = goInfix rest _
    congr 1
    show (_, some o, ((od.precedence : ℤ) : WithTop ℤ)) :: stk = _
    simp only [strOf, topOp_binop, bp_binop o l r od hop]
    rw [← hstrl, ← hstrr]

theorem postfixOf_ne_nil (e : Expr) : postfixOf e ≠ [] := by
  cases e with
  | num q => simp [postfixOf]
  | binop o l r => simp [postfixOf]

theorem rpnToInfix_postfix (e : Expr) (hwf : wfE e = true) :
    rpnToInfix (postfixOf e) = .ok (some (strOf e)) := by
  have h := goInfix_postfix e hwf [] []
  rw [List.append_nil] at h
  rw [rpnToInfix, if_neg (postfixOf_ne_nil e), h]
  rfl

/-! ### Sequence assembly (C5, C6, C9) -/

theorem useStructuresGo_ok (numbers : List ℚ) (operators : List String) :
    ∀ (st : List ℕ) (i j : ℕ),
    i + countNums st ≤ numbers.length → j + countOps st ≤ operators.length →
    ∃ seq, useStructuresGo numbers operators st i j = .ok seq ∧
      shapeOf seq = st.map (fun node => if node = 0 then 0 else 1) ∧
      (∀ o, Token.op o ∈ seq → o ∈ operators) := by
  intro st
  induction st with
  | nil => intro i j _ _; exact ⟨[], rfl, rfl, by simp⟩
  | cons node rest ih =>
    intro i j hn ho
    rw [countNums_cons] at hn
    rw [countOps_cons] at ho
    by_cases h0 : node = 0
    · subst h0
      simp only [reduceIte] at hn ho
      have hi : i < numbers.length := by omega
      have hq : numbers[i]? = some numbers[i] := List.getElem?_eq_getElem hi
      obtain ⟨seq, hseq, hsh, hmem⟩ := ih (i + 1) j (by omega) (by omega)
      refine ⟨Token.num numbers[i] :: seq, ?_, ?_, ?_⟩
      · simp only [useStructuresGo, if_pos rfl, hq, hseq]
        rfl
      · simp [shapeOf] at hsh ⊢
        exact hsh
      · intro o hmo
        rcases List.mem_cons.mp hmo with h | h
        · simp at h
        · exact hmem o h
    · simp only [if_neg h0] at hn ho
      have hj : j < operators.length := by omega
      have hq : operators[j]? = some operators[j] := List.getElem?_eq_getElem hj
      obtain ⟨seq, hseq, hsh, hmem⟩ := ih i (j + 1) (by omega) (by omega)
      refine ⟨Token.op operators[j] :: seq, ?_, ?_, ?_⟩
      · simp only [useStructuresGo, if_neg h0, hq, hseq]
        rfl
      · simp only [shapeOf, List.map_cons, if_neg h0] at hsh ⊢
        exact congrArg (1 :: ·) hsh
      · intro o hmo
        rcases List.mem_cons.mp hmo with h | h
        · rw [Token.op.injEq] at h
          rw [h]
          exact List.getElem_mem hj
        · exact hmem o h

theorem useStructuresGo_ok_necc (numbers : List ℚ) (operators : List String) :
    ∀ (st : List ℕ) (i j : ℕ) (seq : List Token),
    useStructuresGo numbers operators st i j = .ok seq →
    (countNums st = 0 ∨ i + countNums st ≤ numbers.length) ∧
      (countOps st = 0 ∨ j + countOps st ≤ operators.length) := by
  intro st
  induction st with
  | nil => intro i j seq _; exact ⟨Or.inl rfl, Or.inl rfl⟩
  | cons node rest ih =>
    intro i j seq hseq
    by_cases h0 : node = 0
    · subst h0
      simp only [useStructuresGo, reduceIte] at hseq
      cases hq : numbers[i]? with
      | none => rw [hq] at hseq; simp at hseq
      | some q =>
        have hi : i < numbers.length := by
          by_contra hc
          rw [List.getElem?_eq_none (by omega)] at hq
          simp at hq
        rw [hq] at hseq
        cases hrec : useStructuresGo numbers operators rest (i + 1) j with
        | error e => rw [hrec] at hseq; simp [Except.map] at hseq
        | ok s =>
          obtain ⟨hA, hB⟩ := ih (i + 1) j s hrec
          rw [countNums_cons, countOps_cons]
          simp only [reduceIte]
          constructor
          · right
            rcases hA with h | h <;> omega
          · rcases hB with h | h
            · left; omega
            · right; omega
    · simp only [useStructuresGo, if_neg h0] at hseq
      cases hq : operators[j]? with
      | none => rw [hq] at hseq; simp at hseq
      | some o =>
        have hj : j < operators.length := by
          by_contra hc
          rw [List.getElem?_eq_none (by omega)] at hq
          simp at hq
        rw [hq] at hseq
        cases hrec : useStructuresGo numbers operators rest i (j + 1) with
        | error e => rw [hrec] at hseq; simp [Except.map] at hseq
        | ok s =>
          obtain ⟨hA, hB⟩ := ih i (j + 1) s hrec
          rw [countNums_cons, countOps_cons]
          simp only [if_neg h0]
          constructor
          · rcases hA with h | h
            · left; omega
            · right; omega
          · right
            rcases hB with h | h <;> omega

theorem useStructures_isOk_iff (st : List ℕ) (numbers : List ℚ) (operators : List String) :
    (∃ seq, useStructures st numbers operators = .ok seq) ↔
      (countNums st ≤ numbers.length ∧ countOps st ≤ operators.length) := by
  constructor
  · rintro ⟨seq, hseq⟩
    obtain ⟨hA, hB⟩ := useStructuresGo_ok_necc numbers operators st 0 0 seq hseq
    constructor
    · rcases hA with h | h <;> omega
    · rcases hB with h | h <;> omega
  · rintro ⟨h1, h2⟩
    obtain ⟨seq, hseq, _, _⟩ :=
      useStructuresGo_ok numbers operators st 0 0 (by omega) (by omega)
    exact ⟨seq, hseq⟩

theorem map_norm_id (st : List ℕ) (h01 : ∀ x ∈ st, x = 0 ∨ x = 1) :
    st.map (fun node => if node = 0 then 0 else 1) = st := by
  induction st with
  | nil => rfl
  | cons x t ih =>
    have ht := ih (fun y hy => h01 y (List.mem_cons_of_mem _ hy))
    rcases h01 x (List.mem_cons_self x t) with h | h
    · subst h
      rw [List.map_cons, if_pos rfl, ht]
    · subst h
      rw [List.map_cons, if_neg (by norm_num), ht]

theorem processPair_ok (operators : List String) (target tol : ℚ) (perm : List ℚ)
    (st : List ℕ) (h01 : ∀ x ∈ st, x = 0 ∨ x = 1)
    (hc0 : countNums st = perm.length) (hc1 : countOps st = operators.length)
    (hv : validFrom 0 st = true) (hend : endStack 0 st = 1)
    (hopw : ∀ o ∈ operators, (OPERATORS o).isSome = true) :
    ∃ res, processPair operators target tol perm st = .ok res ∧
      ∀ x, x ∈ res ↔ ∃ seq v, useStructures st perm operators = .ok seq ∧
        computeRPN seq = .ok (some v) ∧ |v - target| < tol ∧
        rpnToInfix seq = .ok x := by
  obtain ⟨seq, hseq, hsh, hmem⟩ :=
    useStructuresGo_ok perm operators st 0 0 (by omega) (by omega)
  have huse : useStructures st perm operators = .ok seq := hseq
  rw [map_norm_id st h01] at hsh
  have hvs : ValidSeq seq := ⟨by rw [hsh]; exact hv, by rw [hsh]; exact hend⟩
  have how : opsWf seq = true := by
    rw [opsWf, List.all_eq_true]
    intro tk htk
    cases tk with
    | num q => rfl
    | op o => exact hopw o (hmem o htk)
  obtain ⟨e, _, hpost⟩ := valid_seq_expr seq hvs
  have hwf : wfE e = true := wfE_of_opsWf e (by rw [hpost]; exact how)
  have hcomp : computeRPN seq = .ok (evalQ e) := by
    rw [← hpost]; exact ( computeRPN_postfix e hwf).1
  have hinf : rpnToInfix seq = .ok (some (strOf e)) := by
    rw [← hpost]; exact rpnToInfix_postfix e hwf
  cases he : evalQ e with
  | none =>
    rw [he] at hcomp
    refine ⟨[], ?_, ?_⟩
    · simp [processPair, huse, hcomp, Bind.bind, Except.bind, Pure.pure, Except.pure]
    · intro x
      simp only [List.not_mem_nil, false_iff]
      rintro ⟨seq', v, hseq', hcomp', _, _⟩
      rw [huse] at hseq'
      cases hseq'
      rw [hcomp] at hcomp'
      simp at hcomp'
  | some v =>
    rw [he] at hcomp
    by_cases htol : |v - target| < tol
    · refine ⟨[some (strOf e)], ?_, ?_⟩
      · simp [processPair, huse, hcomp, htol, hinf, Bind.bind, Except.bind,
          Pure.pure, Except.pure, Functor.map, Except.map]
      · intro x
        simp only [List.mem_singleton]
        constructor
        · rintro rfl
          exact ⟨seq, v, huse, hcomp, htol, hinf⟩
        · rintro ⟨seq', v', hseq', hcomp', _, hinf'⟩
          rw [huse] at hseq'
          cases hseq'
          rw [hinf] at hinf'
          exact (Except.ok.inj hinf').symm
    · refine ⟨[], ?_, ?_⟩
      · simp [processPair, huse, hcomp, htol, Bind.bind, Except.bind,
          Pure.pure, Except.pure]
      · intro x
        simp only [List.not_mem_nil, false_iff]
        rintro ⟨seq', v', hseq', hcomp', htol', _⟩
        rw [huse] at hseq'
        cases hseq'
        rw [hcomp] at hcomp'
        have : v' = v := (Option.some.inj (Except.ok.inj hcomp')).symm
        rw [this] at htol'
        exact htol htol'

theorem mapM_ok_exists {α β : Type} (l : List α) (f : α → Except Unit β)
    (h : ∀ a ∈ l, ∃ b, f a = .ok b) :
    ∃ bs, l.mapM f = .ok bs ∧ ∀ x, x ∈ bs ↔ ∃ a ∈ l, f a = .ok x := by
  induction l with
  | nil =>
    refine ⟨[], rfl, ?_⟩
    simp
  | cons a l ih =>
    obtain ⟨b, hb⟩ := h a (List.mem_cons_self a l)
    obtain ⟨bs, hbs, hmem⟩ := ih (fun a' ha' => h a' (List.mem_cons_of_mem a ha'))
    refine ⟨b :: bs, ?_, ?_⟩
    · rw [List.mapM_cons, hb, hbs]
      rfl
    · intro x
      simp only [List.mem_cons]
      constructor
      · rintro (rfl | hx)
        · exact ⟨a, Or.inl rfl, hb⟩
        · obtain ⟨a', ha', hfa'⟩ := (hmem x).mp hx
          exact ⟨a', Or.inr ha', hfa'⟩
      · rintro ⟨a', rfl | ha', hfa'⟩
        · left
          rw [hb] at hfa'
          exact (Except.ok.inj hfa').symm
        · right
          exact (hmem x).mpr ⟨a', ha', hfa'⟩

theorem processOpsCombinations_eq (operators : List String) (target : ℚ)
    (numbers : List ℚ) (structures : List (List ℕ)) (tol : ℚ) :
    processOpsCombinations operators target numbers structures tol = do
      let nested ← numbers.permutations.mapM (innerSearch operators target structures tol)
      return nested.flatten := rfl

theorem processOpsCombinations_ok (operators : List String) (target : ℚ)
    (numbers : List ℚ) (structures : List (List ℕ)) (tol : ℚ)
    (hst : ∀ st ∈ structures, (∀ x ∈ st, x = 0 ∨ x = 1) ∧
      countNums st = numbers.length ∧ countOps st = operators.length ∧
      validFrom 0 st = true ∧ endStack 0 st = 1)
    (hopw : ∀ o ∈ operators, (OPERATORS o).isSome = true) :
    ∃ res, processOpsCombinations operators target numbers structures tol = .ok res ∧
      ∀ x, x ∈ res ↔ ∃ perm ∈ numbers.permutations, ∃ st ∈ structures,
        ∃ seq v, useStructures st perm operators = .ok seq ∧
          computeRPN seq = .ok (some v) ∧ |v - target| < tol ∧
          rpnToInfix seq = .ok x := by
  have hpair : ∀ perm ∈ numbers.permutations, ∀ st ∈ structures,
      ∃ r, processPair operators target tol perm st = .ok r ∧
        ∀ x, x ∈ r ↔ ∃ seq v, useStructures st perm operators = .ok seq ∧
          computeRPN seq = .ok (some v) ∧ |v - target| < tol ∧
          rpnToInfix seq = .ok x := by
    intro perm hperm st hstm
    obtain ⟨h01, hc0, hc1, hv, hend⟩ := hst st hstm
    have hplen : perm.length = numbers.length :=
      (List.mem_permutations.mp hperm).length_eq
    exact processPair_ok operators target tol perm st h01 (by omega) hc1 hv hend hopw
  have hinner : ∀ perm ∈ numbers.permutations,
      ∃ b, innerSearch operators target structures tol perm = .ok b ∧
        ∀ x, x ∈ b ↔ ∃ st ∈ structures, ∃ r,
          processPair operators target tol perm st = .ok r ∧ x ∈ r := by
    intro perm hperm
    obtain ⟨bs, hbs, hmemI⟩ := mapM_ok_exists structures
      (fun st => processPair operators target tol perm st)
      (fun st hstm => ((hpair perm hperm st hstm).imp (fun r hr => hr.1)))
    refine ⟨bs.flatten, ?_, ?_⟩
    · unfold innerSearch
      rw [hbs]
      rfl
    · intro x
      rw [List.mem_flatten]
      constructor
      · rintro ⟨l, hl, hxl⟩
        obtain ⟨st, hstm, hps⟩ := (hmemI l).mp hl
        exact ⟨st, hstm, l, hps, hxl⟩
      · rintro ⟨st, hstm, r, hps, hxr⟩
        exact ⟨r, (hmemI r).mpr ⟨st, hstm, hps⟩, hxr⟩
  obtain ⟨nested, hnested, hmemN⟩ := mapM_ok_exists numbers.permutations
    (innerSearch operators target structures tol)
    (fun perm hperm => ((hinner perm hperm).imp (fun b hb => hb.1)))
  refine ⟨nested.flatten, ?_, ?_⟩
  · rw [processOpsCombinations_eq, hnested]
    rfl
  · intro x
    rw [List.mem_flatten]
    constructor
    · rintro ⟨b, hb, hxb⟩
      obtain ⟨perm, hperm, hfb⟩ := (hmemN b).mp hb
      obtain ⟨b', hb', hmemB⟩ := hinner perm hperm
      rw [hfb] at hb'
      have hbb : b = b' := Except.ok.inj hb'
      subst hbb
      obtain ⟨st, hstm, r, hps, hxr⟩ := (hmemB x).mp hxb
      obtain ⟨r0, hr0, hmemR⟩ := hpair perm hperm st hstm
      rw [hps] at hr0
      have hrr : r = r0 := Except.ok.inj hr0
      subst hrr
      exact ⟨perm, hperm, st, hstm, (hmemR x).mp hxr⟩
    · rintro ⟨perm, hperm, st, hstm, hcond⟩
      obtain ⟨b', hb', hmemB⟩ := hinner perm hperm
      obtain ⟨r0, hr0, hmemR⟩ := hpair perm hperm st hstm
      refine ⟨b', (hmemN b').mpr ⟨perm, hperm, hb'⟩, ?_⟩
      exact (hmemB x).mpr ⟨st, hstm, r0, hr0, (hmemR x).mpr hcond⟩

/-- C5: for every target, list of numbers and tolerance, the search iterates
every permutation of the numbers and every structure, and collects the
rendered infix string of a combination if and only if its evaluation is not a
domain failure and `|value − target| < tolerance` (strict); a domain failure
never raises an error to the caller (the call returns `.ok`), it only
excludes that combination. -/
theorem processOpsCombinations_correct (operators : List String) (target : ℚ)
    (numbers : List ℚ) (structures : List (List ℕ)) (tol : ℚ)
    (hst : ∀ st ∈ structures, (∀ x ∈ st, x = 0 ∨ x = 1) ∧
      countNums st = numbers.length ∧ countOps st = operators.length ∧
      validFrom 0 st = true ∧ endStack 0 st = 1)
    (hopw : ∀ o ∈ operators, (OPERATORS o).isSome = true) :
    ∃ res, processOpsCombinations operators target numbers structures tol = .ok res ∧
      ∀ x, x ∈ res ↔ ∃ perm ∈ numbers.permutations, ∃ st ∈ structures,
        ∃ seq v, useStructures st perm operators = .ok seq ∧
          computeRPN seq = .ok (some v) ∧ |v - target| < tol ∧
          rpnToInfix seq = .ok x :=
  processOpsCombinations_ok operators target numbers structures tol hst hopw

theorem processOpsCombinations_correct_witness :
    (∀ st ∈ [[0, 0, 1]], (∀ x ∈ st, x = 0 ∨ x = 1) ∧
      countNums st = ([3, 5] : List ℚ).length ∧ countOps st = ["+"].length ∧
      validFrom 0 st = true ∧ endStack 0 st = 1) ∧
    (∀ o ∈ ["+"], (OPERATORS o).isSome = true) ∧
    ∃ res, processOpsCombinations ["+"] 8 [3, 5] [[0, 0, 1]] 1 = .ok res ∧
      ∀ x, x ∈ res ↔ ∃ perm ∈ ([3, 5] : List ℚ).permutations, ∃ st ∈ [[0, 0, 1]],
        ∃ seq v, useStructures st perm ["+"] = .ok seq ∧
          computeRPN seq = .ok (some v) ∧ |v - 8| < 1 ∧
          rpnToInfix seq = .ok x :=
  ⟨by decide, by decide,
    processOpsCombinations_correct ["+"] 8 [3, 5] [[0, 0, 1]] 1 (by decide) (by decide)⟩

theorem opTuples_length (keys : List String) : ∀ k, (opTuples keys k).length = keys.length ^ k := by
  intro k
  induction k with
  | zero => rfl
  | succ k ih =>
    show (keys.flatMap fun o => (opTuples keys k).map (fun t => o :: t)).length = _
    rw [List.length_flatMap]
    simp only [Function.comp_def]
    have h1 : (keys.map fun a => ((opTuples keys k).map (fun t => a :: t)).length) =
        keys.map (fun _ => keys.length ^ k) := by
      apply List.map_congr_left
      intro a _
      rw [List.length_map, ih]
    rw [h1, List.map_const', List.sum_replicate, smul_eq_mul, pow_succ]
    ring

theorem opTuples_mem (keys : List String) :
    ∀ k t, t ∈ opTuples keys k → t.length = k ∧ ∀ o ∈ t, o ∈ keys := by
  intro k
  induction k with
  | zero =>
    intro t ht
    simp only [opTuples, List.mem_singleton] at ht
    subst ht
    exact ⟨rfl, by simp⟩
  | succ k ih =>
    intro t ht
    simp only [opTuples, List.mem_flatMap, List.mem_map] at ht
    obtain ⟨o, ho, t', ht', rfl⟩ := ht
    obtain ⟨hlen, hmem⟩ := ih t' ht'
    refine ⟨by simp [hlen], ?_⟩
    intro x hx
    rcases List.mem_cons.mp hx with rfl | hx
    · exact ho
    · exact hmem x hx

theorem opkeys_isSome : ∀ o ∈ OPKEYS, (OPERATORS o).isSome = true := by decide

/-- C6: the driver completes and returns the attempted-count together with
the result list, and the attempted-count equals
`k ^ (N−1) * N! * catalan (N−1)` where `k` is the number of operators of the
table and `N` the number of numbers. -/
theorem solve_correct (target : ℚ) (numbers : List ℚ) (tol : ℚ)
    (hn : 1 ≤ numbers.length) :
    ∃ res, solve target numbers tol =
      .ok (OPKEYS.length ^ (numbers.length - 1) * Nat.factorial numbers.length *
        catalan (numbers.length - 1), res) := by
  have hlen := generateRPNStructures_length numbers.length hn
  have hvalid := generateRPNStructures_valid numbers.length hn
  have hmain : ∀ ops ∈ opTuples OPKEYS (numbers.length - 1),
      ∃ r, (fun ops => processOpsCombinations ops target numbers
        (generateRPNStructures numbers.length) tol) ops = .ok r := by
    intro ops hops
    obtain ⟨holen, homem⟩ := opTuples_mem OPKEYS (numbers.length - 1) ops hops
    have hopw : ∀ o ∈ ops, (OPERATORS o).isSome = true :=
      fun o ho => opkeys_isSome o (homem o ho)
    obtain ⟨res, hres, _⟩ := processOpsCombinations_ok ops target numbers
      (generateRPNStructures numbers.length) tol
      (by
        intro st hst
        obtain ⟨h01, hc0, hc1, hv, hend⟩ := hvalid st hst
        exact ⟨h01, hc0, by rw [hc1, holen], hv, hend⟩)
      hopw
    exact ⟨res, hres⟩
  obtain ⟨results, hres, _⟩ := mapM_ok_exists (opTuples OPKEYS (numbers.length - 1))
    (fun ops => processOpsCombinations ops target numbers
      (generateRPNStructures numbers.length) tol) hmain
  refine ⟨results.flatten, ?_⟩
  unfold solve
  rw [if_neg (by omega)]
  dsimp only
  rw [hres]
  show Except.ok _ = Except.ok _
  congr 1
  congr 1
  rw [opTuples_length, List.length_permutations, hlen]

theorem solve_correct_witness :
    1 ≤ ([2, 4, 8, 12] : List ℚ).length ∧
      ∃ res, solve 24 [2, 4, 8, 12] (1 / 1000000000) = .ok (7680, res) := by
  refine ⟨by norm_num, ?_⟩
  obtain ⟨res, hres⟩ := solve_correct 24 [2, 4, 8, 12] (1 / 1000000000) (by norm_num)
  refine ⟨res, ?_⟩
  rw [hres]
  have h1 : ([2, 4, 8, 12] : List ℚ).length = 4 := rfl
  rw [h1]
  have h2 : OPKEYS.length ^ (4 - 1) * Nat.factorial 4 * catalan (4 - 1) = 7680 := by
    rw [show (4 : ℕ) - 1 = 3 from rfl, catalan_three]
    decide
  rw [h2]

/-- C9 counterexample: a supplied operand tuple longer than the structure's
NUMBER-slot count is absorbed silently — `useStructures` returns a normal
result instead of failing fast, refuting the claim that every length
mismatch raises. -/
theorem useStructures_oversupply_silent :
    useStructures [0] [(5 : ℚ), 7] [] = .ok [Token.num 5] ∧
      countNums [0] ≠ ([(5 : ℚ), 7] : List ℚ).length := by
  constructor
  · decide
  · decide

/-- C9 amended: assembly fails fast iff the supplied tuples are too short
(fewer numbers than NUMBER slots or fewer operators than OPERATOR slots) —
oversupplied tuples are silently truncated — and a search with zero numbers
raises (the Python ValueError from `itertools.product(..., repeat = -1)`). -/
theorem useStructures_error_conditions :
    (∀ (st : List ℕ) (numbers : List ℚ) (operators : List String),
      (∃ seq, useStructures st numbers operators = .ok seq) ↔
        (countNums st ≤ numbers.length ∧ countOps st ≤ operators.length)) ∧
    (∀ (target tol : ℚ), solve target [] tol = .error ()) := by
  constructor
  · exact useStructures_isOk_iff
  · intro target tol
    rfl

/-- C10: the table's "+", "-" and "*" functions always return a value, and
"/" returns `none` exactly when the right operand is 0 and `x / y` otherwise;
consequently the zero-divisor case inside `computeRPN`'s loop takes the
domain-failure path `.ok none`, never an exception. -/
theorem operators_table_total :
    OPERATORS "+" = some (odOf "+") ∧ OPERATORS "-" = some (odOf "-") ∧
    OPERATORS "*" = some (odOf "*") ∧ OPERATORS "/" = some (odOf "/") ∧
    (∀ x y : ℚ, (odOf "+").func x y = some (x + y)) ∧
    (∀ x y : ℚ, (odOf "-").func x y = some (x - y)) ∧
    (∀ x y : ℚ, (odOf "*").func x y = some (x * y)) ∧
    (∀ x y : ℚ, ((odOf "/").func x y = none ↔ y = 0)) ∧
    (∀ x y : ℚ, y ≠ 0 → (odOf "/").func x y = some (x / y)) ∧
    (∀ (x y : ℚ) (stk : List ℚ) (rest : List Token),
      runRPN (Token.op "/" :: rest) (y :: x :: stk) =
        if y = 0 then .ok none else runRPN rest ((x / y) :: stk)) := by
  refine ⟨rfl, rfl, rfl, rfl, fun x y => rfl, fun x y => rfl, fun x y => rfl, ?_, ?_, ?_⟩
  · intro x y
    show (if y ≠ 0 then some (x / y) else none) = none ↔ y = 0
    by_cases hy : y = 0
    · simp [hy]
    · simp [hy]
  · intro x y hy
    show (if y ≠ 0 then some (x / y) else none) = some (x / y)
    simp [hy]
  · intro x y stk rest
    by_cases hy : y = 0
    · simp only [runRPN]
      rw [show OPERATORS "/" = some (odOf "/") from rfl]
      simp only [show (odOf "/").func x y = (if y ≠ 0 then some (x / y) else none) from rfl]
      simp [hy]
    · simp only [runRPN]
      rw [show OPERATORS "/" = some (odOf "/") from rfl]
      simp only [show (odOf "/").func x y = (if y ≠ 0 then some (x / y) else none) from rfl]
      simp [hy]

theorem operators_table_total_witness :
    (1 : ℚ) ≠ 0 ∧ (odOf "/").func 3 1 = some (3 / 1) :=
  ⟨by norm_num, operators_table_total.2.2.2.2.2.2.2.2.1 3 1 (by norm_num)⟩

/-! ### The modelled parser: fuel monotonicity -/

theorem parseP_numT (f : ℕ) (q : ℚ) (ts : List ITok) :
    parseP f (ITok.numT q :: ts) = some (Expr.num q, ts) := by cases f <;> rfl

theorem parseP_nil (f : ℕ) : parseP f [] = none := by cases f <;> rfl

theorem parseP_rpar (f : ℕ) (ts : List ITok) : parseP f (ITok.rpar :: ts) = none := by
  cases f <;> rfl

theorem parseP_opT (f : ℕ) (o : String) (ts : List ITok) :
    parseP f (ITok.opT o :: ts) = none := by cases f <;> rfl

theorem parseP_lpar (f : ℕ) (ts : List ITok) :
    parseP (f + 1) (ITok.lpar :: ts) =
      (match parseE f ⊥ ts with
        | some (e, ITok.rpar :: ts') => some (e, ts')
        | _ => none) := rfl

theorem parseE_succ (f : ℕ) (m : WithBot ℤ) (ts : List ITok) :
    parseE (f + 1) m ts =
      (match parseP f ts with
        | some (lhs, ts') => parseL f m lhs ts'
        | none => none) := rfl

theorem parseL_opT (f : ℕ) (m : WithBot ℤ) (lhs : Expr) (o : String) (ts : List ITok) :
    parseL (f + 1) m lhs (ITok.opT o :: ts) =
      (match OPERATORS o with
        | some od =>
          if m ≤ ((od.precedence : ℤ) : WithBot ℤ) then
            match parseE f (((od.precedence + 1 : ℤ)) : WithBot ℤ) ts with
            | some (rhs, ts') => parseL f m (Expr.binop o lhs rhs) ts'
            | none => none
          else some (lhs, ITok.opT o :: ts)
        | none => none) := rfl

theorem parseL_nil (f : ℕ) (m : WithBot ℤ) (lhs : Expr) :
    parseL (f + 1) m lhs [] = some (lhs, []) := rfl

theorem parseL_rpar (f : ℕ) (m : WithBot ℤ) (lhs : Expr) (ts : List ITok) :
    parseL (f + 1) m lhs (ITok.rpar :: ts) = some (lhs, ITok.rpar :: ts) := rfl

theorem parseL_numT (f : ℕ) (m : WithBot ℤ) (lhs : Expr) (q : ℚ) (ts : List ITok) :
    parseL (f + 1) m lhs (ITok.numT q :: ts) = some (lhs, ITok.numT q :: ts) := rfl

theorem parseL_lpar (f : ℕ) (m : WithBot ℤ) (lhs : Expr) (ts : List ITok) :
    parseL (f + 1) m lhs (ITok.lpar :: ts) = some (lhs, ITok.lpar :: ts) := rfl

theorem parse_mono : ∀ f : ℕ,
    (∀ f' ts r, f ≤ f' → parseP f ts = some r → parseP f' ts = some r) ∧
    (∀ f' m ts r, f ≤ f' → parseE f m ts = some r → parseE f' m ts = some r) ∧
    (∀ f' m lhs ts r, f ≤ f' → parseL f m lhs ts = some r → parseL f' m lhs ts = some r) := by
  intro f
  induction f with
  | zero =>
    refine ⟨?_, ?_, ?_⟩
    · intro f' ts r _ h
      cases ts with
      | nil => rw [parseP_nil] at h; cases h
      | cons t ts =>
        cases t with
        | numT q => rw [parseP_numT] at h ⊢; exact h
        | rpar => rw [parseP_rpar] at h; cases h
        | opT o => rw [parseP_opT] at h; cases h
        | lpar =>
          have h0 : parseP 0 (ITok.lpar :: ts) = none := rfl
          rw [h0] at h; cases h
    · intro f' m ts r _ h
      have h0 : parseE 0 m ts = none := rfl
      rw [h0] at h; cases h
    · intro f' m lhs ts r _ h
      have h0 : parseL 0 m lhs ts = none := rfl
      rw [h0] at h; cases h
  | succ f ih =>
    obtain ⟨ihP, ihE, ihL⟩ := ih
    refine ⟨?_, ?_, ?_⟩
    · intro f' ts r hle h
      obtain ⟨f2, rfl⟩ : ∃ f2, f' = f2 + 1 := ⟨f' - 1, by omega⟩
      have hle2 : f ≤ f2 := by omega
      cases ts with
      | nil => rw [parseP_nil] at h; cases h
      | cons t ts =>
        cases t with
        | numT q => rw [parseP_numT] at h ⊢; exact h
        | rpar => rw [parseP_rpar] at h; cases h
        | opT o => rw [parseP_opT] at h; cases h
        | lpar =>
          rw [parseP_lpar] at h ⊢
          cases he : parseE f ⊥ ts with
          | none => rw [he] at h; cases h
          | some pr =>
            obtain ⟨e, ts'⟩ := pr
            rw [he] at h
            rw [ihE f2 ⊥ ts (e, ts') hle2 he]
            exact h
    · intro f' m ts r hle h
      obtain ⟨f2, rfl⟩ : ∃ f2, f' = f2 + 1 := ⟨f' - 1, by omega⟩
      have hle2 : f ≤ f2 := by omega
      rw [parseE_succ] at h ⊢
      cases hp : parseP f ts with
      | none => rw [hp] at h; cases h
      | some pr =>
        obtain ⟨lhs, ts'⟩ := pr
        rw [hp] at h
        rw [ihP f2 ts (lhs, ts') hle2 hp]
        exact ihL f2 m lhs ts' r hle2 h
    · intro f' m lhs ts r hle h
      obtain ⟨f2, rfl⟩ : ∃ f2, f' = f2 + 1 := ⟨f' - 1, by omega⟩
      have hle2 : f ≤ f2 := by omega
      cases ts with
      | nil => rw [parseL_nil] at h ⊢; exact h
      | cons t ts =>
        cases t with
        | numT q => rw [parseL_numT] at h ⊢; exact h
        | rpar => rw [parseL_rpar] at h ⊢; exact h
        | lpar => rw [parseL_lpar] at h ⊢; exact h
        | opT o =>
          rw [parseL_opT] at h ⊢
          cases hop : OPERATORS o with
          | none => rw [hop] at h; cases h
          | some od =>
            rw [hop] at h
            dsimp only at h ⊢
            by_cases hm : m ≤ ((od.precedence : ℤ) : WithBot ℤ)
            · rw [if_pos hm] at h ⊢
              cases he : parseE f (((od.precedence + 1 : ℤ)) : WithBot ℤ) ts with
              | none => rw [he] at h; cases h
              | some pr =>
                obtain ⟨rhs, ts'⟩ := pr
                rw [he] at h
                rw [ihE f2 (((od.precedence + 1 : ℤ)) : WithBot ℤ) ts (rhs, ts') hle2 he]
                exact ihL f2 m (Expr.binop o lhs rhs) ts' r hle2 h
            · rw [if_neg hm] at h ⊢
              exact h

/-! ### Left-association normalization -/

theorem key_enum (o : String) (h : (OPERATORS o).isSome = true) :
    o = "+" ∨ o = "-" ∨ o = "*" ∨ o = "/" := by
  by_cases h1 : o = "+"
  · exact Or.inl h1
  by_cases h2 : o = "-"
  · exact Or.inr (Or.inl h2)
  by_cases h3 : o = "*"
  · exact Or.inr (Or.inr (Or.inl h3))
  by_cases h4 : o = "/"
  · exact Or.inr (Or.inr (Or.inr h4))
  exfalso
  rw [OPERATORS, if_neg h1, if_neg h2, if_neg h3, if_neg h4] at h
  simp at h

theorem rotation_case_enum (o o2 : String) (ho : (OPERATORS o).isSome = true)
    (ho2 : (OPERATORS o2).isSome = true)
    (hp : (odOf o2).precedence = (odOf o).precedence)
    (ha : (odOf o).associative = true) :
    (o = "+" ∧ (o2 = "+" ∨ o2 = "-")) ∨ (o = "*" ∧ (o2 = "*" ∨ o2 = "/")) := by
  rcases key_enum o ho with rfl | rfl | rfl | rfl <;>
    rcases key_enum o2 ho2 with rfl | rfl | rfl | rfl <;>
    simp_all [odOf, OPERATORS]

theorem evalQ_reassoc (o o2 : String) (A B C : Expr)
    (hcase : (o = "+" ∧ (o2 = "+" ∨ o2 = "-")) ∨ (o = "*" ∧ (o2 = "*" ∨ o2 = "/"))) :
    evalQ (Expr.binop o2 (Expr.binop o A B) C) = evalQ (Expr.binop o A (Expr.binop o2 B C)) := by
  have hplus : OPERATORS "+" = some ⟨fun x y => some (x + y), 1, true⟩ := rfl
  have hminus : OPERATORS "-" = some ⟨fun x y => some (x - y), 1, false⟩ := rfl
  have hmul : OPERATORS "*" = some ⟨fun x y => some (x * y), 2, true⟩ := rfl
  have hdiv : OPERATORS "/" =
      some ⟨fun x y => if y ≠ 0 then some (x / y) else none, 2, false⟩ := rfl
  rcases hcase with ⟨rfl, rfl | rfl⟩ | ⟨rfl, rfl | rfl⟩
  · cases ha : evalQ A <;> cases hb : evalQ B <;> cases hc : evalQ C <;>
      simp only [evalQ, ha, hb, hc, hplus]
    rw [add_assoc]
  · cases ha : evalQ A <;> cases hb : evalQ B <;> cases hc : evalQ C <;>
      simp only [evalQ, ha, hb, hc, hplus, hminus]
    rw [add_sub_assoc]
  · cases ha : evalQ A <;> cases hb : evalQ B <;> cases hc : evalQ C <;>
      simp only [evalQ, ha, hb, hc, hmul]
    rw [mul_assoc]
  · cases ha : evalQ A <;> cases hb : evalQ B <;> cases hc : evalQ C <;>
      simp only [evalQ, ha, hb, hc, hmul, hdiv]
    rename_i x y z
    by_cases hz : z = 0
    · simp [hz]
    · simp only [hz, ne_eq, not_false_iff, if_true, reduceIte]
      rw [mul_div_assoc]

theorem topOp_mkNode_isSome (o : String) (l : Expr) (R : Expr) :
    (topOp (mkNode o l R)).isSome = true := by
  cases R with
  | num q => rfl
  | binop o2 rl rr =>
    rw [mkNode]
    split <;> rfl

theorem wfE_mkNode (o : String) (l R : Expr) (ho : (OPERATORS o).isSome = true)
    (hl : wfE l = true) : wfE R = true → wfE (mkNode o l R) = true := by
  induction R with
  | num q => intro _; simp [mkNode, wfE, ho, hl]
  | binop o2 rl rr ih1 _ =>
    intro hR
    simp only [wfE, Bool.and_eq_true] at hR
    obtain ⟨⟨ho2, hrl⟩, hrr⟩ := hR
    rw [mkNode]
    split
    · simp only [wfE, Bool.and_eq_true]
      exact ⟨⟨ho2, ih1 hrl⟩, hrr⟩
    · simp only [wfE, Bool.and_eq_true]
      exact ⟨⟨ho, hl⟩, ⟨ho2, hrl⟩, hrr⟩

theorem bp_mkNode (o : String) (l R : Expr) (ho : (OPERATORS o).isSome = true) :
    wfE R = true → bp (mkNode o l R) = (((odOf o).precedence : ℤ) : WithTop ℤ) := by
  induction R with
  | num q =>
    intro _
    obtain ⟨od, hop⟩ := Option.isSome_iff_exists.mp ho
    show bp (Expr.binop o l (Expr.num q)) = _
    rw [bp_binop o _ _ od hop, odOf_lookup o od hop]
  | binop o2 rl rr ih1 _ =>
    intro hR
    simp only [wfE, Bool.and_eq_true] at hR
    obtain ⟨⟨ho2, hrl⟩, hrr⟩ := hR
    rw [mkNode]
    split
    · rename_i hc
      obtain ⟨od2, hop2⟩ := Option.isSome_iff_exists.mp ho2
      rw [bp_binop o2 _ _ od2 hop2,
        show od2 = odOf o2 from (odOf_lookup o2 od2 hop2).symm, hc.1]
    · obtain ⟨od, hop⟩ := Option.isSome_iff_exists.mp ho
      rw [bp_binop o _ _ od hop, odOf_lookup o od hop]

theorem toksOf_mkNode (o : String) (l R : Expr) (ho : (OPERATORS o).isSome = true) :
    wfE R = true → toksOf (mkNode o l R) = toksOf (Expr.binop o l R) := by
  induction R with
  | num q => intro _; rfl
  | binop o2 rl rr ih1 _ =>
    intro hR
    simp only [wfE, Bool.and_eq_true] at hR
    obtain ⟨⟨ho2, hrl⟩, hrr⟩ := hR
    rw [mkNode]
    split
    · rename_i hc
      have hbp : bp (mkNode o l rl) = (((odOf o).precedence : ℤ) : WithTop ℤ) :=
        bp_mkNode o l rl ho hrl
      have hneedL2 : needL o2 (mkNode o l rl) = false := by
        rw [needL, hbp, hc.1]
        simp
      have hRL : needR o rl = needL o2 rl := by
        rw [needR, needL, hc.2, hc.1]
        simp
      obtain ⟨od2, hop2⟩ := Option.isSome_iff_exists.mp ho2
      have hbpr : bp (Expr.binop o2 rl rr) = (((odOf o).precedence : ℤ) : WithTop ℤ) := by
        rw [bp_binop o2 _ _ od2 hop2,
          show od2 = odOf o2 from (odOf_lookup o2 od2 hop2).symm, hc.1]
      have hneedR : needR o (Expr.binop o2 rl rr) = false := by
        rw [needR, hbpr, hc.2]
        simp
      show toksOf (Expr.binop o2 (mkNode o l rl) rr) = toksOf (Expr.binop o l _)
      simp only [toksOf, hneedL2, hneedR, Bool.false_eq_true, if_false]
      rw [ih1 hrl]
      simp only [toksOf, hRL]
      simp [List.append_assoc]
    · rfl

theorem LLb_mkNode (o : String) (l R : Expr) (ho : (OPERATORS o).isSome = true)
    (hLl : LLb l = true) : wfE R = true → LLb R = true → LLb (mkNode o l R) = true := by
  induction R with
  | num q =>
    intro _ _
    show LLb (Expr.binop o l (Expr.num q)) = true
    simp [LLb, hLl, topOp]
  | binop o2 rl rr ih1 _ =>
    intro hR hLR
    simp only [wfE, Bool.and_eq_true] at hR
    obtain ⟨⟨ho2, hrl⟩, hrr⟩ := hR
    simp only [LLb, Bool.and_eq_true] at hLR
    obtain ⟨⟨hLrl, hLrr⟩, hcnd⟩ := hLR
    rw [mkNode]
    split
    · rename_i hc
      simp only [LLb, Bool.and_eq_true]
      exact ⟨⟨ih1 hrl hLrl, hLrr⟩, hcnd⟩
    · rename_i hc
      obtain ⟨od2, hop2⟩ := Option.isSome_iff_exists.mp ho2
      have hbp2 : bp (Expr.binop o2 rl rr) =
          (((odOf o2).precedence : ℤ) : WithTop ℤ) := by
        rw [bp_binop o2 _ _ od2 hop2, odOf_lookup o2 od2 hop2]
      simp only [LLb, Bool.and_eq_true]
      refine ⟨⟨hLl, ?_⟩, ?_⟩
      · exact ⟨⟨hLrl, hLrr⟩, hcnd⟩
      · by_cases hp : (odOf o2).precedence = (odOf o).precedence
        · have hassoc : (odOf o).associative = false := by
            by_contra hb
            exact hc ⟨hp, by revert hb; cases (odOf o).associative <;> simp⟩
          simp [hbp2, hassoc]
        · simp [hbp2, hp]

theorem evalQ_mkNode (o : String) (l R : Expr) (ho : (OPERATORS o).isSome = true) :
    wfE R = true → evalQ (mkNode o l R) = evalQ (Expr.binop o l R) := by
  induction R with
  | num q => intro _; rfl
  | binop o2 rl rr ih1 _ =>
    intro hR
    simp only [wfE, Bool.and_eq_true] at hR
    obtain ⟨⟨ho2, hrl⟩, hrr⟩ := hR
    rw [mkNode]
    split
    · rename_i hc
      have hcase := rotation_case_enum o o2 ho ho2 hc.1 hc.2
      calc evalQ (Expr.binop o2 (mkNode o l rl) rr)
          = evalQ (Expr.binop o2 (Expr.binop o l rl) rr) := by
            simp only [evalQ, ih1 hrl]
        _ = evalQ (Expr.binop o l (Expr.binop o2 rl rr)) := evalQ_reassoc o o2 l rl rr hcase
    · rfl

theorem wfE_la (e : Expr) : wfE e = true → wfE (la e) = true := by
  induction e with
  | num q => intro _; rfl
  | binop o l r ihl ihr =>
    intro h
    simp only [wfE, Bool.and_eq_true] at h
    obtain ⟨⟨ho, hl⟩, hr⟩ := h
    exact wfE_mkNode o (la l) (la r) ho (ihl hl) (ihr hr)

theorem topOp_la_isSome (e : Expr) : (topOp (la e)).isSome = (topOp e).isSome := by
  cases e with
  | num q => rfl
  | binop o l r =>
    rw [la, topOp_mkNode_isSome]
    rfl

theorem bp_la (e : Expr) : wfE e = true → bp (la e) = bp e := by
  cases e with
  | num q => intro _; rfl
  | binop o l r =>
    intro h
    simp only [wfE, Bool.and_eq_true] at h
    obtain ⟨⟨ho, hl⟩, hr⟩ := h
    rw [la, bp_mkNode o (la l) (la r) ho (wfE_la r hr)]
    obtain ⟨od, hop⟩ := Option.isSome_iff_exists.mp ho
    rw [bp_binop o l r od hop, odOf_lookup o od hop]

theorem needL_la (o : String) (l : Expr) (hl : wfE l = true) :
    needL o (la l) = needL o l := by
  rw [needL, needL, bp_la l hl, topOp_la_isSome]

theorem needR_la (o : String) (r : Expr) (hr : wfE r = true) :
    needR o (la r) = needR o r := by
  rw [needR, needR, bp_la r hr, topOp_la_isSome]

theorem toksOf_la (e : Expr) : wfE e = true → toksOf (la e) = toksOf e := by
  induction e with
  | num q => intro _; rfl
  | binop o l r ihl ihr =>
    intro h
    simp only [wfE, Bool.and_eq_true] at h
    obtain ⟨⟨ho, hl⟩, hr⟩ := h
    rw [la, toksOf_mkNode o (la l) (la r) ho (wfE_la r hr)]
    show toksOf (Expr.binop o (la l) (la r)) = toksOf (Expr.binop o l r)
    simp only [toksOf, needL_la o l hl, needR_la o r hr, ihl hl, ihr hr]

theorem evalQ_la (e : Expr) : wfE e = true → evalQ (la e) = evalQ e := by
  induction e with
  | num q => intro _; rfl
  | binop o l r ihl ihr =>
    intro h
    simp only [wfE, Bool.and_eq_true] at h
    obtain ⟨⟨ho, hl⟩, hr⟩ := h
    rw [la, evalQ_mkNode o (la l) (la r) ho (wfE_la r hr)]
    simp only [evalQ, ihl hl, ihr hr]

theorem LLb_la (e : Expr) : wfE e = true → LLb (la e) = true := by
  induction e with
  | num q => intro _; rfl
  | binop o l r ihl ihr =>
    intro h
    simp only [wfE, Bool.and_eq_true] at h
    obtain ⟨⟨ho, hl⟩, hr⟩ := h
    rw [la]
    exact LLb_mkNode o (la l) (la r) ho (ihl hl) (wfE_la r hr) (ihr hr)

/-! ### Completeness of the parser on the rendered stream -/

theorem leB_bot (b : WithTop ℤ) : leB ⊥ b := fun _ _ => bot_le

theorem leB_top (m : WithBot ℤ) : leB m ⊤ := by
  intro p hp
  exact absurd hp (by simp)

theorem leB_coe_iff (p : ℤ) (m : WithBot ℤ) :
    leB m ((p : ℤ) : WithTop ℤ) ↔ m ≤ ((p : ℤ) : WithBot ℤ) := by
  constructor
  · intro h
    exact h p rfl
  · intro h q hq
    have hpq : p = q := by exact_mod_cast hq
    rw [← hpq]
    exact h

theorem StopsLe_mono (b b' : WithTop ℤ) (h : b ≤ b') (rest : List ITok) :
    StopsLe b rest → StopsLe b' rest := by
  cases rest with
  | nil => intro _; trivial
  | cons t ts =>
    cases t with
    | rpar => intro _; trivial
    | opT o =>
      rintro ⟨od, hop, hle⟩
      exact ⟨od, hop, le_trans hle h⟩
    | numT q => intro h2; exact h2
    | lpar => intro h2; exact h2

theorem parseL_stops (f : ℕ) (m : WithBot ℤ) (t : Expr) (rest : List ITok)
    (b : WithTop ℤ) (hstop : StopsLe b rest)
    (hgt : ∀ p : ℤ, ((p : ℤ) : WithTop ℤ) ≤ b → ¬(m ≤ ((p : ℤ) : WithBot ℤ))) :
    parseL (f + 1) m t rest = some (t, rest) := by
  cases rest with
  | nil => exact parseL_nil f m t
  | cons tok ts =>
    cases tok with
    | rpar => exact parseL_rpar f m t ts
    | numT q => exact parseL_numT f m t q ts
    | lpar => exact parseL_lpar f m t ts
    | opT o =>
      obtain ⟨od, hop, hle⟩ := hstop
      rw [parseL_opT, hop]
      dsimp only
      rw [if_neg (hgt od.precedence hle)]

theorem coe_succ_not_le (P p : ℤ) (hle : ((p : ℤ) : WithTop ℤ) ≤ ((P : ℤ) : WithTop ℤ)) :
    ¬(((P + 1 : ℤ) : WithBot ℤ) ≤ ((p : ℤ) : WithBot ℤ)) := by
  rw [WithTop.coe_le_coe] at hle
  rw [WithBot.coe_le_coe]
  omega

theorem unwrapped_right_gt (P p2 : ℤ) (assoc : Bool)
    (hnr : (decide (((p2 : ℤ) : WithTop ℤ) < ((P : ℤ) : WithTop ℤ)) ||
      (decide (((p2 : ℤ) : WithTop ℤ) = ((P : ℤ) : WithTop ℤ)) && !assoc)) = false)
    (hprot : (decide (((p2 : ℤ) : WithTop ℤ) = ((P : ℤ) : WithTop ℤ)) && assoc) = false) :
    P < p2 := by
  by_cases hp : p2 = P
  · subst hp
    rw [Bool.or_eq_false_iff] at hnr
    have h2 := hnr.2
    rw [Bool.and_eq_false_iff] at h2 hprot
    rcases h2 with h2 | h2
    · simp at h2
    · rcases hprot with hp2 | hp2
      · simp at hp2
      · rw [Bool.not_eq_false'] at h2
        rw [h2] at hp2
        cases hp2
  · have hnlt : ¬(p2 < P) := by
      intro hlt
      rw [Bool.or_eq_false_iff] at hnr
      have := hnr.1
      rw [decide_eq_false_iff_not] at this
      exact this (WithTop.coe_lt_coe.mpr hlt)
    omega

theorem parseE_LL (t : Expr) : wfE t = true → LLb t = true →
    ∀ (m : WithBot ℤ) (rest : List ITok), leB m (bp t) → StopsLe (bp t) rest →
    ∀ (g : ℕ) (res : Expr × List ITok), parseL g m t rest = some res →
    ∃ f, parseE f m (toksOf t ++ rest) = some res := by
  induction t with
  | num q =>
    intro _ _ m rest _ _ g res hL
    refine ⟨g + 2, ?_⟩
    show parseE (g + 1 + 1) m ([ITok.numT q] ++ rest) = some res
    rw [List.singleton_append, parseE_succ, parseP_numT]
    dsimp only
    exact (parse_mono g).2.2 (g + 1) m (Expr.num q) rest res (by omega) hL
  | binop o l r ihl ihr =>
    intro hwf hLL m rest hm hstop g res hgiven
    simp only [wfE, Bool.and_eq_true] at hwf
    obtain ⟨⟨ho, hwl⟩, hwr⟩ := hwf
    simp only [LLb, Bool.and_eq_true] at hLL
    obtain ⟨⟨hLl, hLr⟩, hprot⟩ := hLL
    obtain ⟨od, hop⟩ := Option.isSome_iff_exists.mp ho
    have hbpt : bp (Expr.binop o l r) = ((od.precedence : ℤ) : WithTop ℤ) :=
      bp_binop o l r od hop
    rw [hbpt] at hm hstop
    have hmP : m ≤ ((od.precedence : ℤ) : WithBot ℤ) := (leB_coe_iff _ _).mp hm
    have hA : ∃ fR, parseE fR (((od.precedence + 1 : ℤ)) : WithBot ℤ)
        ((if needR o r then ITok.lpar :: (toksOf r ++ [ITok.rpar]) else toksOf r) ++ rest) =
        some (r, rest) := by
      by_cases hnr : needR o r = true
      · rw [if_pos hnr]
        obtain ⟨f1, h1⟩ := ihr hwr hLr ⊥ (ITok.rpar :: rest) (leB_bot _) trivial 1
          (r, ITok.rpar :: rest) (parseL_rpar 0 ⊥ r rest)
        refine ⟨f1 + 2, ?_⟩
        have heq : (ITok.lpar :: (toksOf r ++ [ITok.rpar])) ++ rest =
            ITok.lpar :: (toksOf r ++ (ITok.rpar :: rest)) := by simp
        rw [heq]
        show parseE (f1 + 1 + 1) _ _ = _
        rw [parseE_succ, parseP_lpar, h1]
        dsimp only
        exact parseL_stops f1 _ r rest _ hstop (coe_succ_not_le od.precedence)
      · rw [if_neg hnr]
        rw [Bool.not_eq_true] at hnr
        cases r with
        | num qr =>
          refine ⟨3, ?_⟩
          show parseE (2 + 1) _ ([ITok.numT qr] ++ rest) = _
          rw [List.singleton_append, parseE_succ, parseP_numT]
          dsimp only
          exact parseL_stops 1 _ (Expr.num qr) rest _ hstop (coe_succ_not_le od.precedence)
        | binop o2 rl rr =>
          have ho2 : (OPERATORS o2).isSome = true := by
            simp only [wfE, Bool.and_eq_true] at hwr
            exact hwr.1.1
          obtain ⟨od2, hop2⟩ := Option.isSome_iff_exists.mp ho2
          have hbpr : bp (Expr.binop o2 rl rr) = ((od2.precedence : ℤ) : WithTop ℤ) :=
            bp_binop _ _ _ od2 hop2
          simp only [needR, topOp_binop, Option.isSome_some, Bool.true_and, hbpr,
            odOf_lookup o od hop] at hnr
          simp only [topOp_binop, Option.isSome_some, Bool.true_and, hbpr,
            odOf_lookup o od hop, Bool.not_eq_true'] at hprot
          have hPlt : od.precedence < od2.precedence :=
            unwrapped_right_gt od.precedence od2.precedence od.associative hnr hprot
          have hm2 : leB (((od.precedence + 1 : ℤ)) : WithBot ℤ)
              (bp (Expr.binop o2 rl rr)) := by
            rw [hbpr, leB_coe_iff, WithBot.coe_le_coe]
            omega
          have hstop2 : StopsLe (bp (Expr.binop o2 rl rr)) rest := by
            rw [hbpr]
            exact StopsLe_mono _ _ (WithTop.coe_le_coe.mpr (by omega)) rest hstop
          exact ihr hwr hLr _ rest hm2 hstop2 1 (Expr.binop o2 rl rr, rest)
            (parseL_stops 0 _ _ rest _ hstop (coe_succ_not_le od.precedence))
    obtain ⟨fR, hAr⟩ := hA
    have hB : ∀ fC, fR ≤ fC → g ≤ fC → parseL (fC + 1) m l (ITok.opT o ::
        ((if needR o r then ITok.lpar :: (toksOf r ++ [ITok.rpar]) else toksOf r) ++ rest)) =
        some res := by
      intro fC h1 h2
      rw [parseL_opT, hop]
      dsimp only
      rw [if_pos hmP]
      rw [(parse_mono fR).2.1 fC _ _ _ h1 hAr]
      dsimp only
      exact (parse_mono g).2.2 fC m (Expr.binop o l r) rest res h2 hgiven
    have htok : toksOf (Expr.binop o l r) =
        (if needL o l then ITok.lpar :: (toksOf l ++ [ITok.rpar]) else toksOf l) ++
          ITok.opT o ::
            (if needR o r then ITok.lpar :: (toksOf r ++ [ITok.rpar]) else toksOf r) := rfl
    by_cases hnl : needL o l = true
    · obtain ⟨f3, h3⟩ := ihl hwl hLl ⊥
        (ITok.rpar :: (ITok.opT o ::
          ((if needR o r then ITok.lpar :: (toksOf r ++ [ITok.rpar]) else toksOf r) ++ rest)))
        (leB_bot _) trivial 1 _ (parseL_rpar 0 ⊥ l _)
      refine ⟨f3 + fR + g + 2, ?_⟩
      rw [htok, if_pos hnl]
      have heq : ((ITok.lpar :: (toksOf l ++ [ITok.rpar])) ++ ITok.opT o ::
          (if needR o r then ITok.lpar :: (toksOf r ++ [ITok.rpar]) else toksOf r)) ++ rest =
          ITok.lpar :: (toksOf l ++ (ITok.rpar :: (ITok.opT o ::
            ((if needR o r then ITok.lpar :: (toksOf r ++ [ITok.rpar]) else toksOf r) ++
              rest)))) := by simp
      rw [heq]
      show parseE (f3 + fR + g + 1 + 1) m _ = some res
      rw [parseE_succ]
      have hstep : parseP (f3 + fR + g + 1) (ITok.lpar :: (toksOf l ++ (ITok.rpar ::
          (ITok.opT o :: ((if needR o r then ITok.lpar :: (toksOf r ++ [ITok.rpar])
            else toksOf r) ++ rest))))) = some (l, ITok.opT o ::
          ((if needR o r then ITok.lpar :: (toksOf r ++ [ITok.rpar]) else toksOf r) ++
            rest)) := by
        rw [show f3 + fR + g + 1 = (f3 + fR + g) + 1 from rfl, parseP_lpar]
        rw [(parse_mono f3).2.1 (f3 + fR + g) _ _ _ (by omega) h3]
      rw [hstep]
      dsimp only
      exact hB (f3 + fR + g) (by omega) (by omega)
    · have hbpl : ((od.precedence : ℤ) : WithTop ℤ) ≤ bp l := by
        cases l with
        | num q2 => exact le_top
        | binop ol ll lr =>
          simp only [needL, topOp_binop, Option.isSome_some, Bool.true_and,
            odOf_lookup o od hop, Bool.not_eq_true, decide_eq_false_iff_not] at hnl
          exact not_lt.mp hnl
      have hmleft : leB m (bp l) := by
        intro p hp
        rw [hp] at hbpl
        have hPp : od.precedence ≤ p := WithTop.coe_le_coe.mp hbpl
        exact le_trans hmP (WithBot.coe_le_coe.mpr hPp)
      have hstopleft : StopsLe (bp l) (ITok.opT o ::
          ((if needR o r then ITok.lpar :: (toksOf r ++ [ITok.rpar]) else toksOf r) ++
            rest)) := ⟨od, hop, hbpl⟩
      obtain ⟨f4, h4⟩ := ihl hwl hLl m _ hmleft hstopleft (fR + g + 1) res
        (hB (fR + g) (by omega) (by omega))
      refine ⟨f4, ?_⟩
      rw [htok, if_neg (by rw [Bool.not_eq_true] at hnl; rw [hnl]; simp)]
      rw [List.append_assoc]
      exact h4

/-! ### Detokenization: the token stream spells the rendered string -/

theorem detok_cons₂ (t1 t2 : ITok) (rest : List ITok) :
    detok (t1 :: t2 :: rest) =
      strTok t1 ++ (if sepNeeded t1 t2 then " " else "") ++ detok (t2 :: rest) := rfl

theorem detok_append : ∀ (A : List ITok) (a' : ITok), A.getLast? = some a' →
    ∀ (b : ITok) (B' : List ITok),
    detok (A ++ b :: B') =
      detok A ++ (if sepNeeded a' b then " " else "") ++ detok (b :: B') := by
  intro A
  induction A with
  | nil => intro a' hA; cases hA
  | cons a A2 ih =>
    intro a' hA b B'
    cases A2 with
    | nil =>
      have ha : a = a' := by
        simp [List.getLast?] at hA
        exact hA
      subst ha
      show detok (a :: b :: B') = _
      rw [detok_cons₂]
      rfl
    | cons a2 A3 =>
      have hA2 : (a2 :: A3).getLast? = some a' := by
        rwa [List.getLast?_cons_cons] at hA
      show detok (a :: ((a2 :: A3) ++ b :: B')) = _
      rw [List.cons_append]
      rw [detok_cons₂, ← List.cons_append, ih a' hA2 b B', detok_cons₂]
      simp [String.append_assoc]

theorem toksOf_ends (e : Expr) : wfE e = true →
    toksOf e ≠ [] ∧ (∀ x, (toksOf e).head? = some x → x ≠ ITok.rpar) ∧
      (∀ x, (toksOf e).getLast? = some x → x ≠ ITok.lpar) := by
  induction e with
  | num q =>
    intro _
    refine ⟨by simp [toksOf], ?_, ?_⟩
    · intro x hx
      simp [toksOf] at hx
      rw [← hx]
      simp
    · intro x hx
      simp [toksOf, List.getLast?] at hx
      rw [← hx]
      simp
  | binop o l r ihl ihr =>
    intro hwf
    simp only [wfE, Bool.and_eq_true] at hwf
    obtain ⟨⟨_, hwl⟩, hwr⟩ := hwf
    obtain ⟨hln, hlh, hll⟩ := ihl hwl
    obtain ⟨hrn, hrh, hrl⟩ := ihr hwr
    rw [show toksOf (Expr.binop o l r) =
      (if needL o l then ITok.lpar :: (toksOf l ++ [ITok.rpar]) else toksOf l) ++
        ITok.opT o ::
          (if needR o r then ITok.lpar :: (toksOf r ++ [ITok.rpar]) else toksOf r) from rfl]
    refine ⟨by simp, ?_, ?_⟩
    · intro x hx
      by_cases hnl : needL o l = true
      · rw [if_pos hnl] at hx
        simp at hx
        rw [← hx]
        simp
      · rw [if_neg hnl] at hx
        cases hcl : toksOf l with
        | nil => exact absurd hcl hln
        | cons c cs =>
          rw [hcl] at hx
          simp at hx
          exact hlh x (by rw [hcl, hx.symm]; rfl)
    · intro x hx
      by_cases hnr : needR o r = true
      · rw [if_pos hnr] at hx
        rw [show (if needL o l then ITok.lpar :: (toksOf l ++ [ITok.rpar]) else toksOf l) ++
              ITok.opT o :: (ITok.lpar :: (toksOf r ++ [ITok.rpar])) =
            ((if needL o l then ITok.lpar :: (toksOf l ++ [ITok.rpar]) else toksOf l) ++
              ITok.opT o :: ITok.lpar :: toksOf r) ++ [ITok.rpar] by simp] at hx
        rw [List.getLast?_concat] at hx
        rw [← Option.some_inj.mp hx]
        simp
      · rw [if_neg hnr] at hx
        rcases List.eq_nil_or_concat (toksOf r) with hr0 | ⟨init, a, hra⟩
        · exact absurd hr0 hrn
        · rw [List.concat_eq_append] at hra
          rw [hra] at hx
          rw [show (if needL o l then ITok.lpar :: (toksOf l ++ [ITok.rpar]) else toksOf l) ++
                ITok.opT o :: (init ++ [a]) =
              ((if needL o l then ITok.lpar :: (toksOf l ++ [ITok.rpar]) else toksOf l) ++
                ITok.opT o :: init) ++ [a] by simp] at hx
          rw [List.getLast?_concat] at hx
          exact hrl x (by rw [hra, List.getLast?_concat, hx])

theorem sep_rpar (a : ITok) : sepNeeded a ITok.rpar = false := by
  cases a <;> rfl

theorem sep_opT_left (o : String) (b : ITok) (h : b ≠ ITok.rpar) :
    sepNeeded (ITok.opT o) b = true := by
  cases b
  · rfl
  · exact absurd rfl h
  · rfl
  · rfl

theorem sep_opT_right (a : ITok) (o : String) (h : a ≠ ITok.lpar) :
    sepNeeded a (ITok.opT o) = true := by
  cases a
  · exact absurd rfl h
  · rfl
  · rfl
  · rfl

theorem detok_wrap (X : List ITok) (hX : X ≠ []) :
    detok (ITok.lpar :: (X ++ [ITok.rpar])) = "(" ++ detok X ++ ")" := by
  cases X with
  | nil => exact absurd rfl hX
  | cons c cs =>
    rcases List.eq_nil_or_concat (c :: cs) with h0 | ⟨init, a, hca⟩
    · cases h0
    · rw [List.concat_eq_append] at hca
      rw [show ITok.lpar :: ((c :: cs) ++ [ITok.rpar]) =
            ITok.lpar :: c :: (cs ++ [ITok.rpar]) from rfl]
      rw [detok_cons₂]
      rw [show sepNeeded ITok.lpar c = false by cases c <;> rfl]
      rw [show (c :: (cs ++ [ITok.rpar])) = (c :: cs) ++ ITok.rpar :: [] from rfl]
      rw [detok_append (c :: cs) a (by rw [hca, List.getLast?_concat]) ITok.rpar []]
      rw [sep_rpar]
      show "(" ++ "" ++ (detok (c :: cs) ++ "" ++ ")") = _
      simp
      exact (String.append_assoc _ _ _).symm

/-- The rendered infix text of a well-formed tree is exactly the
detokenization of its token stream: the string `rpnToInfix` builds is read
back token by token. -/
theorem detok_toksOf (e : Expr) : wfE e = true → detok (toksOf e) = strOf e := by
  induction e with
  | num q => intro _; rfl
  | binop o l r ihl ihr =>
    intro hwf
    simp only [wfE, Bool.and_eq_true] at hwf
    obtain ⟨⟨_, hwl⟩, hwr⟩ := hwf
    obtain ⟨hln, hlh, hll⟩ := toksOf_ends l hwl
    obtain ⟨hrn, hrh, hrl⟩ := toksOf_ends r hwr
    have hdl : detok (if needL o l then ITok.lpar :: (toksOf l ++ [ITok.rpar])
        else toksOf l) = (if needL o l then "(" ++ strOf l ++ ")" else strOf l) := by
      by_cases hn : needL o l = true
      · rw [if_pos hn, if_pos hn, detok_wrap _ hln, ihl hwl]
      · rw [if_neg hn, if_neg hn, ihl hwl]
    have hdr : detok (if needR o r then ITok.lpar :: (toksOf r ++ [ITok.rpar])
        else toksOf r) = (if needR o r then "(" ++ strOf r ++ ")" else strOf r) := by
      by_cases hn : needR o r = true
      · rw [if_pos hn, if_pos hn, detok_wrap _ hrn, ihr hwr]
      · rw [if_neg hn, if_neg hn, ihr hwr]
    have hlast : ∃ a, (if needL o l then ITok.lpar :: (toksOf l ++ [ITok.rpar])
        else toksOf l).getLast? = some a ∧ a ≠ ITok.lpar := by
      by_cases hn : needL o l = true
      · refine ⟨ITok.rpar, ?_, by simp⟩
        rw [if_pos hn]
        rw [show ITok.lpar :: (toksOf l ++ [ITok.rpar]) =
              (ITok.lpar :: toksOf l) ++ [ITok.rpar] from rfl]
        exact List.getLast?_concat _
      · rcases List.eq_nil_or_concat (toksOf l) with h0 | ⟨init, a, hla⟩
        · exact absurd h0 hln
        · rw [List.concat_eq_append] at hla
          refine ⟨a, ?_, hll a (by rw [hla, List.getLast?_concat])⟩
          rw [if_neg hn, hla, List.getLast?_concat]
    have hhead : ∃ w W, (if needR o r then ITok.lpar :: (toksOf r ++ [ITok.rpar])
        else toksOf r) = w :: W ∧ w ≠ ITok.rpar := by
      by_cases hn : needR o r = true
      · exact ⟨ITok.lpar, toksOf r ++ [ITok.rpar], by rw [if_pos hn], by simp⟩
      · cases hcr : toksOf r with
        | nil => exact absurd hcr hrn
        | cons c cs =>
          exact ⟨c, cs, by rw [if_neg hn],
            hrh c (by rw [hcr]; rfl)⟩
    obtain ⟨a, hga, hal⟩ := hlast
    obtain ⟨w, W, hW, hwr'⟩ := hhead
    rw [show toksOf (Expr.binop o l r) =
      (if needL o l then ITok.lpar :: (toksOf l ++ [ITok.rpar]) else toksOf l) ++
        ITok.opT o ::
          (if needR o r then ITok.lpar :: (toksOf r ++ [ITok.rpar]) else toksOf r)
        from rfl]
    rw [detok_append _ a hga (ITok.opT o) _]
    rw [sep_opT_right a o hal]
    rw [hW, detok_cons₂, sep_opT_left o w hwr', ← hW, hdl, hdr]
    rw [show strOf (Expr.binop o l r) =
      (if needL o l then "(" ++ strOf l ++ ")" else strOf l) ++ " " ++ o ++ " " ++
        (if needR o r then "(" ++ strOf r ++ ")" else strOf r) from rfl]
    show _ ++ " " ++ (strTok (ITok.opT o) ++ " " ++ _) = _
    rw [show strTok (ITok.opT o) = o from rfl]
    simp [String.append_assoc]

/-- C7: for every valid postfix sequence (with operators from the table), the
infix text produced by `rpnToInfix` — equal, token for token, to the stream
`toksOf e` of the expression tree `e` the sequence denotes — parses back under
a standard precedence/associativity climber over the same operator table, and
the parse result evaluates to exactly the value `computeRPN` computes for the
original sequence (including agreement on domain failures), so rendering never
changes the meaning of the expression. -/
theorem roundtrip_render_parse (seq : List Token) (hval : ValidSeq seq)
    (hops : opsWf seq = true) :
    ∃ (e t : Expr) (f : ℕ),
      postfixOf e = seq ∧
      rpnToInfix seq = .ok (some (strOf e)) ∧
      detok (toksOf e) = strOf e ∧
      parseE f ⊥ (toksOf e) = some (t, []) ∧
      computeRPN seq = .ok (evalQ t) ∧ evalQ t = evalQ e := by
  obtain ⟨e, hpe, hpost⟩ := valid_seq_expr seq hval
  have hwf : wfE e = true := wfE_of_opsWf e (by rw [hpost]; exact hops)
  have hL : parseL 1 ⊥ (la e) [] = some (la e, []) := parseL_nil 0 ⊥ (la e)
  obtain ⟨f, hf⟩ := parseE_LL (la e) (wfE_la e hwf) (LLb_la e hwf) ⊥ []
    (leB_bot _) trivial 1 (la e, []) hL
  rw [List.append_nil, toksOf_la e hwf] at hf
  refine ⟨e, la e, f, hpost, ?_, detok_toksOf e hwf, hf, ?_, evalQ_la e hwf⟩
  · rw [← hpost]
    exact rpnToInfix_postfix e hwf
  · rw [← hpost, evalQ_la e hwf]
    exact ( computeRPN_postfix e hwf).1

/-- Concrete round trip: the sequence `[1, 2, "+"]` is valid and renders to a
string that parses back to the value `computeRPN` computes. -/
theorem roundtrip_render_parse_witness :
    ValidSeq [Token.num 1, Token.num 2, Token.op "+"] ∧
    opsWf [Token.num 1, Token.num 2, Token.op "+"] = true ∧
    ∃ (e t : Expr) (f : ℕ),
      postfixOf e = [Token.num 1, Token.num 2, Token.op "+"] ∧
      rpnToInfix [Token.num 1, Token.num 2, Token.op "+"] = .ok (some (strOf e)) ∧
      detok (toksOf e) = strOf e ∧
      parseE f ⊥ (toksOf e) = some (t, []) ∧
      computeRPN [Token.num 1, Token.num 2, Token.op "+"] = .ok (evalQ t) ∧
      evalQ t = evalQ e :=
  ⟨⟨by decide, by decide⟩, by decide,
    roundtrip_render_parse [Token.num 1, Token.num 2, Token.op "+"]
      ⟨by decide, by decide⟩ (by decide)⟩

end NumExpr
